import Mathlib

/-!
Verification of the Project–Document codec of `project_manager.py`
(Hexagone Project Manager).

The program's text values are modelled as `List Char`.  Python regular
expression searches used by the decoder (`_parse_md`) are embedded as
explicit left-to-right scanners with the exact first-match/greedy
semantics of the `re` module for the concrete patterns the source uses.
Python `str.lower` is modelled on the ASCII range (characters outside
`A`-`Z` are left unchanged); file-system probes (`os.path.exists`) are
modelled as an explicit boolean-valued parameter, and `os.path`
operations are modelled with POSIX separators.
-/

set_option maxRecDepth 10000

abbrev Chars := List Char

/-- Character list of a string literal. -/
def strL (s : String) : Chars := s.data

/-- Backtick character (code 96), written via `Char.ofNat`. -/
def tickC : Char := Char.ofNat 96

/-- Python `\s` character class for `str` patterns (ASCII part). -/
def pyIsSpace (c : Char) : Bool :=
  c == ' ' || c == '\t' || c == '\n' || c == '\r' || c == Char.ofNat 11 || c == Char.ofNat 12

/-- Literal-prefix matcher: `matchLit pat s` holds when `pat` is a prefix of `s`. -/
def matchLit : Chars → Chars → Bool
  | [], _ => true
  | _ :: _, [] => false
  | p :: ps, c :: cs => p == c && matchLit ps cs

/-- Python substring containment (`pat in s`). -/
def occursIn (pat : Chars) : Chars → Bool
  | [] => matchLit pat []
  | c :: cs => matchLit pat (c :: cs) || occursIn pat cs

/-- Generic leftmost search: scan the suffixes of `s` left to right and
return the first result of `f` (the semantics of `re.search`, with `f`
deciding whether the pattern matches at the head of the given suffix). -/
def searchOpt {α : Type} (f : Chars → Option α) : Chars → Option α
  | [] => f []
  | c :: cs =>
    match f (c :: cs) with
    | some r => some r
    | none => searchOpt f cs

/-- Python `str.strip()` (whitespace on both ends). -/
def pyStrip (s : Chars) : Chars :=
  ((s.dropWhile pyIsSpace).reverse.dropWhile pyIsSpace).reverse

/-- Python `str.lower` on the ASCII range, by code point: `A`-`Z` is
65-90, and the lower-case letters sit 32 code points higher. -/
def pyToLower (c : Char) : Char :=
  if 65 ≤ c.toNat ∧ c.toNat ≤ 90 then Char.ofNat (c.toNat + 32) else c

/-- Characters the slug keeps, by code point: `[a-z0-9-]` is 97-122,
48-57 and 45. -/
def isSlugChar (c : Char) : Bool :=
  (97 ≤ c.toNat && c.toNat ≤ 122) || (48 ≤ c.toNat && c.toNat ≤ 57) || c.toNat == 45

/-- Slug derivation used for `p.id` and table-of-contents anchors:
`re.sub(r'[^a-z0-9\-]', '', title.lower().replace(' ', '-'))`. -/
def slug (s : Chars) : Chars :=
  ((s.map pyToLower).map (fun c => if c = ' ' then '-' else c)).filter isSlugChar

theorem dropWhile_length_le (p : Char → Bool) (l : Chars) :
    (l.dropWhile p).length ≤ l.length := by
  induction l with
  | nil => simp [List.dropWhile]
  | cons c cs ih =>
    by_cases h : p c
    · simp [List.dropWhile, h]; omega
    · simp [List.dropWhile, h]

/-- Suffix of `w` beginning at its last character different from a newline
(backtracking helper for `\s+(.+)` when the whitespace run reaches the end
of the text). -/
def tailFromLastNonNl : Chars → Option Chars
  | [] => none
  | c :: cs =>
    match tailFromLastNonNl cs with
    | some r => some r
    | none => if c ≠ '\n' then some (c :: cs) else none

/-- Matcher for `\s+(.+)` at the start of `s`; returns the capture of the
group together with the remainder of the text after the match end
(so `re.findall` loops can resume at the right position).  Follows the
greedy/backtracking semantics of the Python pattern: the whitespace run is
maximal; when it reaches the end of the text the engine backs up to the
last non-newline character. -/
def wsDotCapR (s : Chars) : Option (Chars × Chars) :=
  let w := s.takeWhile pyIsSpace
  let t := s.dropWhile pyIsSpace
  if w.isEmpty then none
  else if t.isEmpty then
    match tailFromLastNonNl (w.drop 1) with
    | some r => some (r.takeWhile (fun c => c ≠ '\n'), r.dropWhile (fun c => c ≠ '\n'))
    | none => none
  else some (t.takeWhile (fun c => c ≠ '\n'), t.dropWhile (fun c => c ≠ '\n'))

/-- Matcher for the title pattern `##\s+(.+)` at the head of `s`. -/
def titleAt (s : Chars) : Option Chars :=
  match s with
  | '#' :: '#' :: rest => (wsDotCapR rest).map Prod.fst
  | _ => none

/-- Matcher for `\*\*([^*]+)\*\*` at the head of `s`. -/
def boldAt : Chars → Option Chars
  | '*' :: '*' :: rest =>
    let cap := rest.takeWhile (fun c => c ≠ '*')
    if cap.isEmpty then none
    else
      match rest.dropWhile (fun c => c ≠ '*') with
      | '*' :: '*' :: _ => some cap
      | _ => none
  | _ => none

/-- Matcher for `<p>([^<]+)</p>` at the head of `s`. -/
def pTagAt : Chars → Option Chars
  | '<' :: 'p' :: '>' :: rest =>
    let cap := rest.takeWhile (fun c => c ≠ '<')
    if cap.isEmpty then none
    else if matchLit (strL "</p>") (rest.dropWhile (fun c => c ≠ '<')) then some cap
    else none
  | _ => none

/-- Fueled loop of the inline-code-span `re.findall`: the fuel only bounds
the recursion depth (each step consumes at least one character, so
`length + 1` fuel always suffices; `tickSpans_cons` below recovers the
fuel-free recurrence), with the backtick spelled as `tickC`. -/
def tickSpansF : Nat → Chars → List Chars
  | 0, _ => []
  | _ + 1, [] => []
  | f + 1, c :: cs =>
    if c = tickC then
      match cs.dropWhile (fun x => x ≠ tickC) with
      | [] => tickSpansF f cs
      | _ :: rest' =>
        if (cs.takeWhile (fun x => x ≠ tickC)).isEmpty then tickSpansF f cs
        else cs.takeWhile (fun x => x ≠ tickC) :: tickSpansF f rest'
    else tickSpansF f cs

/-- All `re.findall` matches of the inline-code-span pattern. -/
def tickSpans (s : Chars) : List Chars := tickSpansF (s.length + 1) s

theorem tickSpansF_fuel (f : Nat) (s : Chars) (h : s.length < f) :
    tickSpansF f s = tickSpansF (s.length + 1) s := by
  induction f using Nat.strong_induction_on generalizing s with
  | _ f ih =>
    match f, s with
    | 0, s => omega
    | f + 1, [] => rfl
    | f + 1, c :: cs =>
      simp at h
      have hcs : cs.length < f := by omega
      rw [tickSpansF, tickSpansF]
      simp only [List.length_cons]
      cases hd : cs.dropWhile (fun x => x ≠ tickC) with
      | nil =>
        rw [ih f (by omega) cs hcs, ih (cs.length + 1) (by omega) cs (by omega)]
      | cons a rest' =>
        have hr : rest'.length < cs.length := by
          have := dropWhile_length_le (fun x => x ≠ tickC) cs
          rw [hd] at this
          simp at this
          omega
        dsimp only
        rw [ih f (by omega) cs hcs, ih (cs.length + 1) (by omega) cs (by omega),
          ih f (by omega) rest' (by omega),
          ih (cs.length + 1) (by omega) rest' (by omega)]

/-- Fuel-free recurrence of `tickSpans`, matching the scan of the Python
pattern: at a backtick, capture the non-backtick run when it is non-empty
and closed, and otherwise resume one character further on. -/
theorem tickSpans_cons (c : Char) (cs : Chars) :
    tickSpans (c :: cs) =
      if c = tickC then
        (match cs.dropWhile (fun x => x ≠ tickC) with
          | [] => tickSpans cs
          | _ :: rest' =>
            if (cs.takeWhile (fun x => x ≠ tickC)).isEmpty then tickSpans cs
            else cs.takeWhile (fun x => x ≠ tickC) :: tickSpans rest')
      else tickSpans cs := by
  unfold tickSpans
  rw [show (c :: cs).length + 1 = (cs.length + 1) + 1 by simp]
  rw [tickSpansF]
  cases hd : cs.dropWhile (fun x => x ≠ tickC) with
  | nil => rfl
  | cons a rest' =>
    have hr : rest'.length < cs.length := by
      have := dropWhile_length_le (fun x => x ≠ tickC) cs
      rw [hd] at this
      simp at this
      omega
    dsimp only
    rw [tickSpansF_fuel (cs.length + 1) rest' (by omega)]

/-- Skip to the position just after the first occurrence of `pat`
(the effect of a lazy `.*?pat` in `re.DOTALL` mode). -/
def afterFirst (pat : Chars) : Chars → Option Chars
  | [] => if matchLit pat [] then some [] else none
  | c :: cs =>
    if matchLit pat (c :: cs) then some ((c :: cs).drop pat.length)
    else afterFirst pat cs

/-- Capture up to the first occurrence of `pat` (a lazy `(.*?)pat` in
`re.DOTALL` mode); `none` when `pat` does not occur. -/
def upToFirst (pat : Chars) : Chars → Option Chars
  | [] => if matchLit pat [] then some [] else none
  | c :: cs =>
    if matchLit pat (c :: cs) then some []
    else (upToFirst pat cs).map (fun r => c :: r)

/-- Matcher for `###\s*Tech Stack.*?<p>(.*?)</p>` (DOTALL) at the head of `s`. -/
def techAt (s : Chars) : Option Chars :=
  match s with
  | '#' :: '#' :: '#' :: rest =>
    let afterWs := rest.dropWhile pyIsSpace
    if matchLit (strL "Tech Stack") afterWs then
      match afterFirst (strL "<p>") (afterWs.drop 10) with
      | some afterP => upToFirst (strL "</p>") afterP
      | none => none
    else none
  | _ => none

/-- Capture of the lazy `(.*?)(?=###|$)` (DOTALL): text up to the first
`###`, or to the `$` position (end of text, or just before a final
newline). -/
def lazyUpToHashOrEnd : Chars → Chars
  | [] => []
  | c :: cs =>
    if matchLit (strL "###") (c :: cs) then []
    else if cs.isEmpty && c = '\n' then []
    else c :: lazyUpToHashOrEnd cs

/-- Matcher for `###\s*Features(.*?)(?=###|$)` (DOTALL) at the head of `s`. -/
def featAt (s : Chars) : Option Chars :=
  match s with
  | '#' :: '#' :: '#' :: rest =>
    let afterWs := rest.dropWhile pyIsSpace
    if matchLit (strL "Features") afterWs then some (lazyUpToHashOrEnd (afterWs.drop 8))
    else none
  | _ => none

theorem takeWhile_length_le (p : Char → Bool) (l : Chars) :
    (l.takeWhile p).length ≤ l.length := by
  induction l with
  | nil => simp [List.takeWhile]
  | cons c cs ih =>
    by_cases h : p c
    · simp [List.takeWhile, h]; omega
    · simp [List.takeWhile, h]

theorem tailFromLastNonNl_length_le (w r : Chars) (h : tailFromLastNonNl w = some r) :
    r.length ≤ w.length := by
  induction w with
  | nil => simp [tailFromLastNonNl] at h
  | cons a as ih =>
    rw [tailFromLastNonNl] at h
    cases h2 : tailFromLastNonNl as with
    | some r2 =>
      rw [h2] at h
      simp at h
      subst h
      have := ih h2
      simp; omega
    | none =>
      rw [h2] at h
      by_cases ha : a ≠ '\n'
      · simp [ha] at h
        subst h
        simp
      · simp [ha] at h

theorem wsDotCapR_rest_le (s cap rest : Chars) (h : wsDotCapR s = some (cap, rest)) :
    rest.length ≤ s.length := by
  unfold wsDotCapR at h
  by_cases hw : (s.takeWhile pyIsSpace).isEmpty
  · simp [hw] at h
  · by_cases ht : (s.dropWhile pyIsSpace).isEmpty
    · simp only [hw, ht, Bool.false_eq_true, if_false, if_true] at h
      cases htl : tailFromLastNonNl ((s.takeWhile pyIsSpace).drop 1) with
      | none => rw [htl] at h; simp at h
      | some r =>
        rw [htl] at h
        simp at h
        have hr := tailFromLastNonNl_length_le _ _ htl
        have h2 : rest.length ≤ r.length := by
          rw [← h.2]
          exact dropWhile_length_le _ r
        have h3 : ((s.takeWhile pyIsSpace).drop 1).length ≤ s.length := by
          have := takeWhile_length_le pyIsSpace s
          simp [List.length_drop]
          omega
        omega
    · simp only [hw, ht, Bool.false_eq_true, if_false] at h
      simp at h
      have h2 : rest.length ≤ (s.dropWhile pyIsSpace).length := by
        rw [← h.2]
        exact dropWhile_length_le _ _
      have := dropWhile_length_le pyIsSpace s
      omega

/-- Fueled loop of the `-\s+(.+)` `re.findall` (the feature bullet
items); `length + 1` fuel always suffices and `dashItems_cons` recovers
the fuel-free recurrence. -/
def dashItemsF : Nat → Chars → List Chars
  | 0, _ => []
  | _ + 1, [] => []
  | f + 1, c :: cs =>
    if c = '-' then
      match wsDotCapR cs with
      | some (cap, rest) => cap :: dashItemsF f rest
      | none => dashItemsF f cs
    else dashItemsF f cs

/-- All `re.findall` matches of `-\s+(.+)`. -/
def dashItems (s : Chars) : List Chars := dashItemsF (s.length + 1) s

theorem dashItemsF_fuel (f : Nat) (s : Chars) (h : s.length < f) :
    dashItemsF f s = dashItemsF (s.length + 1) s := by
  induction f using Nat.strong_induction_on generalizing s with
  | _ f ih =>
    match f, s with
    | 0, s => omega
    | f + 1, [] => rfl
    | f + 1, c :: cs =>
      simp at h
      have hcs : cs.length < f := by omega
      rw [dashItemsF, dashItemsF]
      simp only [List.length_cons]
      cases hd : wsDotCapR cs with
      | none =>
        rw [ih f (by omega) cs hcs, ih (cs.length + 1) (by omega) cs (by omega)]
      | some pr =>
        obtain ⟨cap, rest⟩ := pr
        have hr : rest.length ≤ cs.length := wsDotCapR_rest_le cs cap rest hd
        dsimp only
        rw [ih f (by omega) cs hcs, ih (cs.length + 1) (by omega) cs (by omega),
          ih f (by omega) rest (by omega),
          ih (cs.length + 1) (by omega) rest (by omega)]

/-- Fuel-free recurrence of `dashItems`: at a hyphen, match `\s+(.+)`
and resume after the capture, otherwise step one character. -/
theorem dashItems_cons (c : Char) (cs : Chars) :
    dashItems (c :: cs) =
      if c = '-' then
        (match wsDotCapR cs with
          | some (cap, rest) => cap :: dashItems rest
          | none => dashItems cs)
      else dashItems cs := by
  unfold dashItems
  rw [show (c :: cs).length + 1 = (cs.length + 1) + 1 by simp]
  rw [dashItemsF]
  cases hd : wsDotCapR cs with
  | none => rfl
  | some pr =>
    obtain ⟨cap, rest⟩ := pr
    have hr : rest.length ≤ cs.length := wsDotCapR_rest_le cs cap rest hd
    dsimp only
    rw [dashItemsF_fuel (cs.length + 1) rest (by omega)]

/-- Fueled loop of the `<code>([^<]+)</code>` `re.findall`; `length + 1`
fuel always suffices and `codeSpans_cons` recovers the fuel-free
recurrence. -/
def codeSpansF : Nat → Chars → List Chars
  | 0, _ => []
  | _ + 1, [] => []
  | f + 1, c :: cs =>
    if matchLit (strL "<code>") (c :: cs) then
      if ((cs.drop 5).takeWhile (fun x => x ≠ '<')).isEmpty then codeSpansF f cs
      else if matchLit (strL "</code>") ((cs.drop 5).dropWhile (fun x => x ≠ '<')) then
        (cs.drop 5).takeWhile (fun x => x ≠ '<') ::
          codeSpansF f (((cs.drop 5).dropWhile (fun x => x ≠ '<')).drop 7)
      else codeSpansF f cs
    else codeSpansF f cs

/-- All `re.findall` matches of `<code>([^<]+)</code>`. -/
def codeSpans (s : Chars) : List Chars := codeSpansF (s.length + 1) s

theorem codeSpansF_fuel (f : Nat) (s : Chars) (h : s.length < f) :
    codeSpansF f s = codeSpansF (s.length + 1) s := by
  induction f using Nat.strong_induction_on generalizing s with
  | _ f ih =>
    match f, s with
    | 0, s => omega
    | f + 1, [] => rfl
    | f + 1, c :: cs =>
      simp at h
      have hcs : cs.length < f := by omega
      have hr : (((cs.drop 5).dropWhile (fun x => x ≠ '<')).drop 7).length ≤ cs.length := by
        have h2 := dropWhile_length_le (fun x => x ≠ '<') (cs.drop 5)
        simp only [List.length_drop] at h2 ⊢
        omega
      rw [codeSpansF, codeSpansF]
      simp only [List.length_cons]
      rw [ih f (by omega) cs hcs, ih (cs.length + 1) (by omega) cs (by omega),
        ih f (by omega) _ (by omega),
        ih (cs.length + 1) (by omega) (((cs.drop 5).dropWhile (fun x => x ≠ '<')).drop 7)
          (by omega)]

/-- Fuel-free recurrence of `codeSpans`: at a `<code>` tag, capture the
non-`<` run when it is non-empty and closed by `</code>` and resume after
the close tag; otherwise step one character. -/
theorem codeSpans_cons (c : Char) (cs : Chars) :
    codeSpans (c :: cs) =
      if matchLit (strL "<code>") (c :: cs) then
        if ((cs.drop 5).takeWhile (fun x => x ≠ '<')).isEmpty then codeSpans cs
        else if matchLit (strL "</code>") ((cs.drop 5).dropWhile (fun x => x ≠ '<')) then
          (cs.drop 5).takeWhile (fun x => x ≠ '<') ::
            codeSpans (((cs.drop 5).dropWhile (fun x => x ≠ '<')).drop 7)
        else codeSpans cs
      else codeSpans cs := by
  unfold codeSpans
  rw [show (c :: cs).length + 1 = (cs.length + 1) + 1 by simp]
  rw [codeSpansF]
  have hr : (((cs.drop 5).dropWhile (fun x => x ≠ '<')).drop 7).length ≤ cs.length := by
    have h2 := dropWhile_length_le (fun x => x ≠ '<') (cs.drop 5)
    simp only [List.length_drop] at h2 ⊢
    omega
  rw [codeSpansF_fuel (cs.length + 1) (((cs.drop 5).dropWhile (fun x => x ≠ '<')).drop 7)
    (by omega)]

/-- Matcher for `href="(DOMAIN[^"]+)"` at the head of `s`, where `domPat`
is the full literal `href="DOMAIN` (e.g. for the Play Store pattern
`href="(https://play\.google\.com[^"]+)"`); returns the capture group. -/
def hrefLitAt (domPat : Chars) (s : Chars) : Option Chars :=
  if matchLit domPat s then
    let after := s.drop domPat.length
    let cap := after.takeWhile (fun c => c ≠ '"')
    if cap.isEmpty then none
    else
      match after.dropWhile (fun c => c ≠ '"') with
      | '"' :: _ => some (domPat.drop 6 ++ cap)
      | _ => none
  else none

/-- Existence scan for `[^>]*LABEL`: does `label` occur starting at a
position reachable without crossing a `>`? -/
def scanToLabel (label : Chars) : Chars → Bool
  | [] => matchLit label []
  | c :: cs => matchLit label (c :: cs) || (c ≠ '>' && scanToLabel label cs)

/-- Matcher for the badge-anchor pattern
`href="([^"]+)"[^>]*>\s*<img[^>]*LABEL` at the head of `s`. -/
def badgeHrefAt (label : Chars) (s : Chars) : Option Chars :=
  if matchLit (strL "href=\"") s then
    let after := s.drop 6
    let cap := after.takeWhile (fun c => c ≠ '"')
    if cap.isEmpty then none
    else
      match after.dropWhile (fun c => c ≠ '"') with
      | '"' :: r1 =>
        match r1.dropWhile (fun c => c ≠ '>') with
        | '>' :: r2 =>
          let r3 := r2.dropWhile pyIsSpace
          if matchLit (strL "<img") r3 then
            if scanToLabel label (r3.drop 4) then some cap else none
          else none
        | _ => none
      | _ => none
  else none

def isDigitC (c : Char) : Bool := '0' ≤ c && c ≤ '9'

/-- Extension alternatives of the screenshot pattern, in the order the
alternation tries them. -/
def extAlts : List Chars := [strL "png", strL "jpg", strL "jpeg", strL "webp", strL "gif"]

theorem matchLit_length (pat s : Chars) (h : matchLit pat s = true) :
    pat.length ≤ s.length := by
  induction pat generalizing s with
  | nil => simp
  | cons p ps ih =>
    cases s with
    | nil => simp [matchLit] at h
    | cons c cs =>
      simp [matchLit] at h
      have := ih cs h.2
      simp; omega

/-- Matcher for `images/[^/]+/(\d+)\.(png|jpg|jpeg|webp|gif)` at the head
of `s`; returns the two capture groups and the remainder after the match. -/
def ssAt (s : Chars) : Option ((Chars × Chars) × Chars) :=
  if matchLit (strL "images/") s then
    let r1 := s.drop 7
    if (r1.takeWhile (fun c => c ≠ '/')).isEmpty then none
    else if matchLit (strL "/") (r1.dropWhile (fun c => c ≠ '/')) then
      let r2 := (r1.dropWhile (fun c => c ≠ '/')).drop 1
      let num := r2.takeWhile isDigitC
      if num.isEmpty then none
      else if matchLit (strL ".") (r2.dropWhile isDigitC) then
        let r3 := (r2.dropWhile isDigitC).drop 1
        match extAlts.find? (fun e => matchLit e r3) with
        | some e => some ((num, e), r3.drop e.length)
        | none => none
      else none
    else none
  else none

theorem ssAt_rest_lt (s : Chars) (pr : Chars × Chars) (rest : Chars)
    (h : ssAt s = some (pr, rest)) : rest.length < s.length := by
  unfold ssAt at h
  split at h
  case isFalse => simp at h
  case isTrue h0 =>
    dsimp only at h
    split at h
    · simp at h
    · split at h
      case isFalse => simp at h
      case isTrue h2 =>
        split at h
        · simp at h
        · split at h
          case isFalse => simp at h
          case isTrue h4 =>
            split at h
            case h_2 => simp at h
            case h_1 e h5 =>
              have h' := Option.some.inj h
              rw [Prod.mk.injEq] at h'
              have h2r := h'.2
              have hm := matchLit_length _ _ h0
              have hs2 := matchLit_length _ _ h2
              have hd1 := dropWhile_length_le (fun c => c ≠ '/') (s.drop 7)
              have hd2 := dropWhile_length_le isDigitC
                (((s.drop 7).dropWhile (fun c => c ≠ '/')).drop 1)
              have hrest : rest.length ≤
                  ((((s.drop 7).dropWhile (fun c => c ≠ '/')).drop 1).dropWhile
                    isDigitC).length := by
                rw [← h2r]
                simp only [List.length_drop]
                omega
              have hm7 : (strL "images/").length = 7 := rfl
              have hm1 : (strL "/").length = 1 := rfl
              simp only [List.length_drop] at hd1 hd2 hrest ⊢
              omega

/-- Fueled loop of the screenshot-pattern `re.findall`; `length + 1` fuel
always suffices and `ssMatches_cons` recovers the fuel-free recurrence. -/
def ssMatchesF : Nat → Chars → List (Chars × Chars)
  | 0, _ => []
  | _ + 1, [] => []
  | f + 1, c :: cs =>
    match ssAt (c :: cs) with
    | some (pr, rest) => pr :: ssMatchesF f rest
    | none => ssMatchesF f cs

/-- All `re.findall` matches of the screenshot pattern. -/
def ssMatches (s : Chars) : List (Chars × Chars) := ssMatchesF (s.length + 1) s

theorem ssMatchesF_fuel (f : Nat) (s : Chars) (h : s.length < f) :
    ssMatchesF f s = ssMatchesF (s.length + 1) s := by
  induction f using Nat.strong_induction_on generalizing s with
  | _ f ih =>
    match f, s with
    | 0, s => omega
    | f + 1, [] => rfl
    | f + 1, c :: cs =>
      simp at h
      have hcs : cs.length < f := by omega
      rw [ssMatchesF, ssMatchesF]
      simp only [List.length_cons]
      cases hd : ssAt (c :: cs) with
      | none =>
        rw [ih f (by omega) cs hcs, ih (cs.length + 1) (by omega) cs (by omega)]
      | some pr =>
        obtain ⟨pr, rest⟩ := pr
        have hr : rest.length < cs.length + 1 := by
          have := ssAt_rest_lt (c :: cs) pr rest hd
          simpa using this
        dsimp only
        rw [ih f (by omega) rest (by omega),
          ih (cs.length + 1) (by omega) rest (by omega)]

/-- Fuel-free recurrence of `ssMatches`: a screenshot-pattern match is
consumed whole and scanning resumes after it; otherwise one character is
stepped over. -/
theorem ssMatches_cons (c : Char) (cs : Chars) :
    ssMatches (c :: cs) =
      (match ssAt (c :: cs) with
        | some (pr, rest) => pr :: ssMatches rest
        | none => ssMatches cs) := by
  unfold ssMatches
  rw [show (c :: cs).length + 1 = (cs.length + 1) + 1 by simp]
  rw [ssMatchesF]
  cases hd : ssAt (c :: cs) with
  | none => rfl
  | some pr =>
    obtain ⟨pr, rest⟩ := pr
    have hr : rest.length < cs.length + 1 := by
      have := ssAt_rest_lt (c :: cs) pr rest hd
      simpa using this
    dsimp only
    rw [ssMatchesF_fuel (cs.length + 1) rest (by omega)]

/-- Existence scan for `[^>]*ATTR`: does `attr` occur starting at a
position reachable without crossing a `>`? -/
def attrScan (attr : Chars) : Chars → Bool
  | [] => matchLit attr []
  | c :: cs => matchLit attr (c :: cs) || (c ≠ '>' && attrScan attr cs)

/-- Existence scan for `[^>]*alt="INNER`: try every occurrence of `alt="`
reachable without crossing a `>`, continuing with `inner` on the text
after it (the backtracking choice points of the Python engine). -/
def altScan (inner : Chars → Bool) : Chars → Bool
  | [] => false
  | c :: cs =>
    (matchLit (strL "alt=\"") (c :: cs) && inner ((c :: cs).drop 5)) ||
    (c ≠ '>' && altScan inner cs)

/-- Matcher for the banner pattern
`<img src="([^"]+)"[^>]*alt="[^"]*"[^>]*width="100%"` at the head of `s`. -/
def imgBannerAt (s : Chars) : Option Chars :=
  if matchLit (strL "<img src=\"") s then
    let after := s.drop 10
    let cap := after.takeWhile (fun c => c ≠ '"')
    if cap.isEmpty then none
    else
      match after.dropWhile (fun c => c ≠ '"') with
      | '"' :: r1 =>
        if altScan (fun t =>
            match t.dropWhile (fun c => c ≠ '"') with
            | '"' :: r2 => attrScan (strL "width=\"100%\"") r2
            | _ => false) r1
        then some cap else none
      | _ => none
  else none

/-- Matcher for the logo pattern
`<img src="([^"]+)"[^>]*alt="[^"]*logo"[^>]*height="64"` at the head of `s`. -/
def imgLogoAt (s : Chars) : Option Chars :=
  if matchLit (strL "<img src=\"") s then
    let after := s.drop 10
    let cap := after.takeWhile (fun c => c ≠ '"')
    if cap.isEmpty then none
    else
      match after.dropWhile (fun c => c ≠ '"') with
      | '"' :: r1 =>
        if altScan (fun t =>
            let av := t.takeWhile (fun c => c ≠ '"')
            match t.dropWhile (fun c => c ≠ '"') with
            | '"' :: r2 =>
              matchLit (strL "logo") (av.drop (av.length - 4)) &&
                attrScan (strL "height=\"64\"") r2
            | _ => false) r1
        then some cap else none
      | _ => none
  else none

/-- Matcher for `width="(\d+)"` at the head of `s`; returns the digits. -/
def widthAt (s : Chars) : Option Chars :=
  if matchLit (strL "width=\"") s then
    let r := s.drop 7
    let d := r.takeWhile isDigitC
    if d.isEmpty then none
    else
      match r.dropWhile isDigitC with
      | '"' :: _ => some d
      | _ => none
  else none

/-- Value of a digit string (the always-succeeding `int()` of the decoder). -/
def digitsToNat (ds : Chars) : Nat := ds.foldl (fun n c => n * 10 + (c.toNat - 48)) 0

/-- Accumulator loop of `re.split(r'<hr>|(?:\n---\n)', content)`:
scan left to right, trying `<hr>` first and then `\n---\n` at each
position, and cut the text at every match. -/
def splitGo (acc : Chars) : Chars → List Chars
  | [] => [acc.reverse]
  | '<' :: 'h' :: 'r' :: '>' :: t => acc.reverse :: splitGo [] t
  | '\n' :: '-' :: '-' :: '-' :: '\n' :: t => acc.reverse :: splitGo [] t
  | c :: cs => splitGo (c :: acc) cs

/-- Embedding of `re.split(r'<hr>|(?:\n---\n)', content)`. -/
def splitParts (content : Chars) : List Chars := splitGo [] content

/-- Link dictionaries are modelled as insertion-ordered association
lists, matching Python `dict` observable behaviour (key presence, `get`
with default, insertion order). -/
abbrev LinkMap := List (Chars × Chars)

/-- Python `d[k] = v` on the association-list model. -/
def dictSet (d : LinkMap) (k v : Chars) : LinkMap :=
  if d.any (fun kv => kv.1 == k) then d.map (fun kv => if kv.1 == k then (k, v) else kv)
  else d ++ [(k, v)]

/-- Python `d.get(k)` with falsy default (`None` and `""` both behave as
the empty string in the encoder's truthiness tests). -/
def dictGet (d : LinkMap) (k : Chars) : Chars :=
  match d.find? (fun kv => kv.1 == k) with
  | some kv => kv.2
  | none => []

/-- Python `k in d`. -/
def dictHas (d : LinkMap) (k : Chars) : Bool := d.any (fun kv => kv.1 == k)

/-- Project data model (`Project.__init__` of the source); the field
defaults are the constructor's initial values. -/
structure Project where
  id : Chars := []
  title : Chars := []
  short_description : Chars := []
  long_description : Chars := []
  categories : List Chars := []
  banner_image : Chars := []
  banner_local_path : Chars := []
  technologies : List Chars := []
  features : List Chars := []
  links : LinkMap := []
  screenshots : List Chars := []
  screenshots_local_paths : List Chars := []
  show_logo : Bool := true
  logo_url : Chars := []
  logo_position : Chars := strL "center"
  show_border : Bool := false
  border_style : Chars := strL "rounded"
  theme_color : Chars := strL "#000000"
  screenshot_layout : Chars := strL "horizontal"
  screenshot_size : Nat := 200
deriving Repr, DecidableEq

/-- The fixed category vocabulary of the decoder. -/
def known_categories : List Chars :=
  [strL "Mobile App", strL "Website", strL "IoT", strL "Game", strL "AI/ML",
   strL "3D/AR/VR", strL "Other"]

/-- Name given to a recovered screenshot: `screenshot_{num}.{ext}`. -/
def ssName (pr : Chars × Chars) : Chars :=
  strL "screenshot_" ++ pr.1 ++ strL "." ++ pr.2

/-- Title extraction: first match of `##\s+(.+)`, stripped; empty when no
match (the constructor default). -/
def decodeTitle (part : Chars) : Chars :=
  match searchOpt titleAt part with
  | some cap => pyStrip cap
  | none => []

/-- Id extraction: the slug of the extracted title, assigned exactly when
the title pattern matched. -/
def decodeId (part : Chars) : Chars :=
  match searchOpt titleAt part with
  | some cap => slug (pyStrip cap)
  | none => []

/-- Category extraction: all inline-code spans filtered by the known
vocabulary. -/
def decodeCategories (part : Chars) : List Chars :=
  (tickSpans part).filter (fun c => known_categories.contains c)

/-- Short-description extraction: first bold span, stripped. -/
def decodeShort (part : Chars) : Chars :=
  match searchOpt boldAt part with
  | some cap => pyStrip cap
  | none => []

/-- Long-description extraction: first `<p>…</p>` with no inner tag,
subject to the `'<a href' not in m.group(0) and '<img' not in m.group(0)`
guard of the source. -/
def decodeLong (part : Chars) : Chars :=
  match searchOpt pTagAt part with
  | some cap =>
    if occursIn (strL "<a href") (strL "<p>" ++ cap ++ strL "</p>") ||
        occursIn (strL "<img") (strL "<p>" ++ cap ++ strL "</p>") then []
    else pyStrip cap
  | none => []

/-- Technology extraction: `<code>` spans of the first Tech Stack
paragraph. -/
def decodeTechs (part : Chars) : List Chars :=
  match searchOpt techAt part with
  | some inner => codeSpans inner
  | none => []

/-- Feature extraction: bullet items of the Features section. -/
def decodeFeatures (part : Chars) : List Chars :=
  match searchOpt featAt part with
  | some inner => dashItems inner
  | none => []

/-- One decoder link assignment: when the substring gate holds and the
pattern search finds an URL, set the key; otherwise leave the dict
unchanged (the two unconditional badge searches use a `true` gate). -/
def linkStep (d : LinkMap) (gate : Bool) (found : Option Chars) (key : Chars) : LinkMap :=
  if gate then
    match found with
    | some url => dictSet d key url
    | none => d
  else d

/-- Link extraction: the five presence-gated patterns, inserted into an
initially-empty dict in source order (playStore, appStore, github,
website, apk). -/
def decodeLinks (part : Chars) : LinkMap :=
  linkStep
    (linkStep
      (linkStep
        (linkStep
          (linkStep [] (occursIn (strL "play.google.com") part)
            (searchOpt (hrefLitAt (strL "href=\"https://play.google.com")) part)
            (strL "playStore"))
          (occursIn (strL "apps.apple.com") part)
          (searchOpt (hrefLitAt (strL "href=\"https://apps.apple.com")) part)
          (strL "appStore"))
        (occursIn (strL "github.com") part)
        (searchOpt (hrefLitAt (strL "href=\"https://github.com")) part)
        (strL "github"))
      true (searchOpt (badgeHrefAt (strL "Website")) part) (strL "website"))
    true (searchOpt (badgeHrefAt (strL "APK")) part) (strL "apk")

/-- Screenshot extraction: every numbered canonical image path, renamed
`screenshot_{N}.{ext}`. -/
def decodeShots (part : Chars) : List Chars := (ssMatches part).map ssName

/-- Banner extraction: first full-width image tag. -/
def decodeBanner (part : Chars) : Chars :=
  match searchOpt imgBannerAt part with
  | some src => src
  | none => []

/-- Logo extraction: first logo-alt image tag with the 64-pixel height
marker. -/
def decodeLogo (part : Chars) : Chars :=
  match searchOpt imgLogoAt part with
  | some src => src
  | none => []

/-- `show_logo` after decoding: the constructor default is `true` and the
logo extraction only ever assigns `true`, so both branches are `true`. -/
def decodeShowLogo (part : Chars) : Bool :=
  match searchOpt imgLogoAt part with
  | some _ => true
  | none => true

/-- Border marker test of the decoder. -/
def borderHit (part : Chars) : Bool :=
  occursIn (strL "border: 1px solid") part || occursIn (strL "border: 2px dashed") part

/-- `border_style` after decoding: inferred from the marker text when a
border marker is present, otherwise left at the constructor default. -/
def decodeBorderStyle (part : Chars) : Chars :=
  if borderHit part then
    if occursIn (strL "border-radius: 12px") part then strL "rounded"
    else if occursIn (strL "dashed") part then strL "dashed"
    else strL "square"
  else strL "rounded"

/-- `screenshot_layout` after decoding. -/
def decodeLayout (part : Chars) : Chars :=
  if occursIn (strL "<table") part then strL "grid"
  else if occursIn (strL "align=\"center\"") part && occursIn (strL "<br>") part then
    strL "vertical"
  else strL "horizontal"

/-- `screenshot_size` after decoding: first `width="(\d+)"` match,
otherwise the constructor default (the `int()` of the source cannot fail
on a digit capture). -/
def decodeSize (part : Chars) : Nat :=
  match searchOpt widthAt part with
  | some d => digitsToNat d
  | none => 200

/-- Decoding of one block (the body of the per-part loop of `_parse_md`,
source lines 1892-1990).  The source mutates a fresh `Project()`
field by field, each extraction reading only the block text, so the net
effect is this record; fields never assigned keep the constructor
defaults of `Project`. -/
def decodeProject (part : Chars) : Project :=
  { title := decodeTitle part
    id := decodeId part
    categories := decodeCategories part
    short_description := decodeShort part
    long_description := decodeLong part
    technologies := decodeTechs part
    features := decodeFeatures part
    links := decodeLinks part
    screenshots := decodeShots part
    screenshots_local_paths := decodeShots part
    banner_image := decodeBanner part
    logo_url := decodeLogo part
    show_logo := decodeShowLogo part
    show_border := borderHit part
    border_style := decodeBorderStyle part
    screenshot_layout := decodeLayout part
    screenshot_size := decodeSize part }

/-- Embedding of `_parse_md`: split into parts, keep the parts containing
the substring `"## "`, decode each, and keep results with a non-empty
title. -/
def parse_md (content : Chars) : List Project :=
  (((splitParts content).filter (fun part => occursIn (strL "## ") part)).map
    decodeProject).filter (fun p => !p.title.isEmpty)

/-- Decimal representation of a natural number (Python `str(int)` /
f-string interpolation of an `int`). -/
def natToChars (n : Nat) : Chars := strL (Nat.repr n)

/-- POSIX `os.path.basename`. -/
def pyBasename (path : Chars) : Chars :=
  (path.reverse.takeWhile (fun c => c ≠ '/')).reverse

/-- POSIX `os.path.splitext(path)[1]`: the suffix from the last dot of the
base name, unless every character before that dot in the base name is
itself a dot. -/
def splitextExt (path : Chars) : Chars :=
  let revb := (pyBasename path).reverse
  let afterDotRev := revb.takeWhile (fun c => c ≠ '.')
  match revb.dropWhile (fun c => c ≠ '.') with
  | [] => []
  | _ :: beforeRev =>
    if beforeRev.all (fun c => c = '.') then []
    else '.' :: afterDotRev.reverse

/-- Extension used for an emitted screenshot:
`os.path.splitext(ss)[1] or ".png"`. -/
def extOf (ss : Chars) : Chars :=
  if (splitextExt ss).isEmpty then strL ".png" else splitextExt ss

/-- Border CSS chosen by `border_style` when `show_border` is set
(source lines 1646-1654). -/
def borderCssOf (show_border : Bool) (border_style : Chars) : Chars :=
  if show_border then
    if border_style == strL "rounded" then
      strL "border: 1px solid #e5e7eb; border-radius: 12px; padding: 24px; margin: 16px 0;"
    else if border_style == strL "square" then
      strL "border: 1px solid #e5e7eb; padding: 24px; margin: 16px 0;"
    else if border_style == strL "dashed" then
      strL "border: 2px dashed #e5e7eb; border-radius: 8px; padding: 24px; margin: 16px 0;"
    else []
  else []

/-- Category badge line: one inline code span per category, space-joined. -/
def catBadges (cats : List Chars) : Chars :=
  List.intercalate (strL " ") (cats.map (fun c => tickC :: (c ++ [tickC])))

/-- Link badge snippets, in the fixed key order of the encoder
(source lines 1702-1714). -/
def linkBadges (links : LinkMap) (theme_color : Chars) : List Chars :=
  (if !(dictGet links (strL "playStore")).isEmpty then
    [strL "<a href=\"" ++ dictGet links (strL "playStore") ++
      strL "\"><img src=\"https://img.shields.io/badge/Play_Store-414141?style=for-the-badge&logo=google-play&logoColor=white\"></a>"]
   else [])
  ++ (if !(dictGet links (strL "appStore")).isEmpty then
    [strL "<a href=\"" ++ dictGet links (strL "appStore") ++
      strL "\"><img src=\"https://img.shields.io/badge/App_Store-0D96F6?style=for-the-badge&logo=app-store&logoColor=white\"></a>"]
   else [])
  ++ (if !(dictGet links (strL "website")).isEmpty then
    [strL "<a href=\"" ++ dictGet links (strL "website") ++
      strL "\"><img src=\"https://img.shields.io/badge/Website-" ++ theme_color ++
      strL "?style=for-the-badge&logo=safari&logoColor=white\"></a>"]
   else [])
  ++ (if !(dictGet links (strL "github")).isEmpty then
    [strL "<a href=\"" ++ dictGet links (strL "github") ++
      strL "\"><img src=\"https://img.shields.io/badge/GitHub-181717?style=for-the-badge&logo=github&logoColor=white\"></a>"]
   else [])
  ++ (if !(dictGet links (strL "apk")).isEmpty then
    [strL "<a href=\"" ++ dictGet links (strL "apk") ++
      strL "\"><img src=\"https://img.shields.io/badge/APK-3DDC84?style=for-the-badge&logo=android&logoColor=white\"></a>"]
   else [])

/-- Link paragraph lines (source lines 1716-1721). -/
def linkLines (links : LinkMap) (theme_color : Chars) : List Chars :=
  let badges := linkBadges links theme_color
  if badges.isEmpty then []
  else [strL "<p>"] ++ badges.map (fun b => strL "  " ++ b) ++ [strL "</p>", []]

/-- Tech-stack subsection lines (source lines 1723-1731). -/
def techLines (techs : List Chars) : List Chars :=
  if techs.isEmpty then []
  else
    [strL "### Tech Stack", [], strL "<p>"]
    ++ techs.map (fun t => strL "  <code>" ++ t ++ strL "</code>")
    ++ [strL "</p>", []]

/-- Features subsection lines (source lines 1733-1739). -/
def featLines (feats : List Chars) : List Chars :=
  if feats.isEmpty then []
  else [strL "### Features", []] ++ feats.map (fun f => strL "- " ++ f) ++ [[]]

/-- One horizontal/vertical screenshot image line. -/
def ssImgLine (id : Chars) (size : Nat) (i : Nat) (ss : Chars) (tail : Chars) : Chars :=
  strL "  <img src=\"images/" ++ id ++ strL "/" ++ natToChars i ++ extOf ss ++
    strL "\" width=\"" ++ natToChars size ++ strL "\">" ++ tail

/-- Horizontal layout body, 1-based enumeration. -/
def hImgLines (id : Chars) (size : Nat) : Nat → List Chars → List Chars
  | _, [] => []
  | i, ss :: rest => ssImgLine id size i ss [] :: hImgLines id size (i + 1) rest

/-- Vertical layout body: each image line ends with a `<br>`. -/
def vImgLines (id : Chars) (size : Nat) : Nat → List Chars → List Chars
  | _, [] => []
  | i, ss :: rest => ssImgLine id size i ss (strL "<br>") :: vImgLines id size (i + 1) rest

/-- One grid cell line. -/
def gridCell (id : Chars) (size : Nat) (i : Nat) (ss : Chars) : Chars :=
  strL "    <td align=\"center\"><img src=\"images/" ++ id ++ strL "/" ++ natToChars i ++
    extOf ss ++ strL "\" width=\"" ++ natToChars size ++ strL "\"></td>"

/-- Grid rows: the `for i in range(0, len, 2)` loop of the source, filling
rows left to right and emitting an empty cell for a trailing odd slot. -/
def gridRows (id : Chars) (size : Nat) : Nat → List Chars → List Chars
  | _, [] => []
  | i, [ss] => [strL "  <tr>", gridCell id size i ss, strL "    <td></td>", strL "  </tr>"]
  | i, ss1 :: ss2 :: rest =>
    [strL "  <tr>", gridCell id size i ss1, gridCell id size (i + 1) ss2, strL "  </tr>"]
    ++ gridRows id size (i + 2) rest

/-- Screenshots subsection lines (source lines 1741-1775). -/
def ssLines (id layout : Chars) (size : Nat) (shots : List Chars) : List Chars :=
  if shots.isEmpty then []
  else
    [strL "### Screenshots", []]
    ++ (if layout == strL "horizontal" then
          [strL "<p>"] ++ hImgLines id size 1 shots ++ [strL "</p>"]
        else if layout == strL "grid" then
          [strL "<table align=\"center\">"] ++ gridRows id size 1 shots ++ [strL "</table>"]
        else if layout == strL "vertical" then
          [strL "<p>"] ++ vImgLines id size 1 shots ++ [strL "</p>"]
        else [])
    ++ [[]]

/-- Content lines of `_generate_project_md` (the `content_lines` list of
the source, lines 1656-1779).  `fs` models `os.path.exists`. -/
def generate_project_content (fs : Chars → Bool) (p : Project) : List Chars :=
  [strL "<div align=\"center\">", []]
  ++ (if p.show_logo && !p.logo_url.isEmpty then
        [strL "<img src=\"" ++
          (if fs p.logo_url then
            strL "images/" ++ p.id ++ strL "/logo" ++ splitextExt p.logo_url
           else p.logo_url) ++
          strL "\" alt=\"" ++ p.title ++ strL " logo\" height=\"64\">", []]
      else [])
  ++ [strL "## " ++ (if p.title.isEmpty then strL "Untitled" else p.title), []]
  ++ (if !p.categories.isEmpty then [catBadges p.categories, []] else [])
  ++ (if !p.banner_image.isEmpty then
        [strL "<img src=\"" ++
          (if fs p.banner_image then
            strL "images/" ++ p.id ++ strL "/banner" ++ splitextExt p.banner_image
           else p.banner_image) ++
          strL "\" alt=\"" ++ p.title ++ strL "\" width=\"100%\">", []]
      else [])
  ++ (if !p.short_description.isEmpty then
        [strL "**" ++ p.short_description ++ strL "**", []] else [])
  ++ (if !p.long_description.isEmpty then
        [strL "<p>" ++ p.long_description ++ strL "</p>", []] else [])
  ++ linkLines p.links
      ((if p.theme_color.isEmpty then strL "#000000" else p.theme_color).dropWhile
        (fun c => c = '#'))
  ++ techLines p.technologies
  ++ featLines p.features
  ++ ssLines p.id
      (if p.screenshot_layout.isEmpty then strL "horizontal" else p.screenshot_layout)
      (if p.screenshot_size = 0 then 200 else p.screenshot_size) p.screenshots
  ++ [strL "</div>", []]

/-- Lines of `_generate_project_md` (source lines 1631-1790): the content
lines, wrapped in a border `div` when `show_border` selects a non-empty
CSS. -/
def generate_project_lines (fs : Chars → Bool) (p : Project) : List Chars :=
  let border_css :=
    borderCssOf p.show_border (if p.border_style.isEmpty then strL "rounded" else p.border_style)
  if p.show_border && !border_css.isEmpty then
    [strL "<div style=\"" ++ border_css ++ strL "\">", []] ++ generate_project_content fs p
      ++ [strL "</div>"]
  else generate_project_content fs p

/-- Newline join of a list of lines (Python `"\n".join(lines)`). -/
def joinNL (ls : List Chars) : Chars := List.intercalate (strL "\n") ls

/-- Embedding of `_generate_project_md`. -/
def generate_project_md (fs : Chars → Bool) (p : Project) : Chars :=
  joinNL (generate_project_lines fs p)

/-- Category display string (`Project.category_display`). -/
def category_display (p : Project) : Chars :=
  if p.categories.isEmpty then strL "—" else List.intercalate (strL ", ") p.categories

/-- Table-of-contents rows, 1-based (source lines 1824-1828). -/
def tocRows : Nat → List Project → List Chars
  | _, [] => []
  | i, p :: rest =>
    let title := if p.title.isEmpty then strL "Project " ++ natToChars i else p.title
    (strL "| " ++ natToChars i ++ strL " | [" ++ title ++ strL "](#" ++ slug title ++
      strL ") | " ++ category_display p ++ strL " |") :: tocRows (i + 1) rest

/-- Per-project blocks with the `<hr>` separator lines between consecutive
blocks (source lines 1836-1841). -/
def projBlocks (fs : Chars → Bool) : List Project → List Chars
  | [] => []
  | [p] => [generate_project_md fs p]
  | p :: rest => [generate_project_md fs p, [], strL "<hr>", []] ++ projBlocks fs rest

/-- Embedding of `_generate_full_md` (source lines 1792-1853); `today`
models the `datetime.now()` date stamp of the footer. -/
def generate_full_md (fs : Chars → Bool) (today : Chars) (projects : List Project) : Chars :=
  joinNL (
    [strL "<div align=\"center\">", [],
     strL "<img src=\"images/icon-dark.png\" alt=\"Hexagone\" height=\"120\">", [],
     strL "# Hexagone Projects", [],
     strL "### About this Repository", [],
     strL "This repository contains a collection of projects we have built across industries including e-commerce, fintech, travel, education, healthcare, IoT, and lifestyle.", [],
     strL "<p>",
     strL "  <a href=\"https://theHexagone.com\"><img src=\"https://img.shields.io/badge/theHexagone.com-000000?style=for-the-badge&logo=safari&logoColor=white\"></a>",
     strL "</p>", [],
     strL "</div>", [],
     strL "---", []]
    ++ (if projects.isEmpty then [] else
        [strL "<div align=\"center\">", [],
         strL "## 📋 Contents", [],
         strL "| # | Project | Categories |",
         strL "|:---:|:----------|:------------|"]
        ++ tocRows 1 projects
        ++ [[], strL "</div>", [], strL "---", []])
    ++ projBlocks fs projects
    ++ [[], strL "---", [],
        strL "<div align=\"center\">", [],
        strL "<sub>Last updated: " ++ today ++ strL "</sub>", [],
        strL "</div>"])

/-- POSIX `os.path.isabs`. -/
def pyIsAbs (path : Chars) : Bool := matchLit (strL "/") path

/-- POSIX `os.path.join(a, b)` for a single pair. -/
def pyJoin (a b : Chars) : Chars :=
  if pyIsAbs b then b
  else if a.isEmpty then b
  else if a.getLast? = some '/' then a ++ b
  else a ++ strL "/" ++ b

/-- POSIX `os.path.dirname`. -/
def pyDirname (path : Chars) : Chars :=
  let headRev := path.reverse.dropWhile (fun c => c ≠ '/')
  if headRev.isEmpty || headRev.all (fun c => c = '/') then headRev.reverse
  else (headRev.dropWhile (fun c => c = '/')).reverse

def isWordC (c : Char) : Bool :=
  isDigitC c || ('a' ≤ c && c ≤ 'z') || ('A' ≤ c && c ≤ 'Z') || c == '_'

/-- Matcher for `(\d+)\.\w+$` at the head of `s` (used on a base name):
a maximal digit run, a dot, and a word run reaching the end of the text
(or the position just before a final newline, the other place `$`
matches). -/
def numTokenAt (s : Chars) : Option Chars :=
  let d := s.takeWhile isDigitC
  if d.isEmpty then none
  else
    match s.dropWhile isDigitC with
    | '.' :: r =>
      if (r.takeWhile isWordC).isEmpty then none
      else
        match r.dropWhile isWordC with
        | [] => some d
        | ['\n'] => some d
        | _ => none
    | _ => none

/-- The numbered-screenshot fallback extensions, in probe order. -/
def resolveExts : List Chars :=
  [strL ".jpg", strL ".jpeg", strL ".png", strL ".webp", strL ".gif"]

/-- Probe loop of the numeric fallback: first existing
`images_dir/{num}{ext}`. -/
def tryExts (ex : Chars → Bool) (dir num : Chars) : List Chars → Chars
  | [] => []
  | e :: rest =>
    if ex (pyJoin dir (num ++ e)) then pyJoin dir (num ++ e) else tryExts ex dir num rest

/-- Embedding of the closure `resolve_image_path` (source lines 893-920).
`ex` models `os.path.exists`, `file_path` the ambient `self.file_path`,
and `images_dir` the precomputed `images/{project-id}` directory (empty
when the project has no id). -/
def resolve_image_path (ex : Chars → Bool) (file_path : Option Chars)
    (images_dir : Chars) (path : Chars) : Chars :=
  if path.isEmpty then []
  else if pyIsAbs path && ex path then path
  else
    let step2 :=
      match file_path with
      | some fp =>
        if ex (pyJoin (pyDirname fp) path) then some (pyJoin (pyDirname fp) path) else none
      | none => none
    match step2 with
    | some r => r
    | none =>
      if !images_dir.isEmpty then
        if ex (pyJoin images_dir (pyBasename path)) then pyJoin images_dir (pyBasename path)
        else
          match searchOpt numTokenAt (pyBasename path) with
          | some num => tryExts ex images_dir num resolveExts
          | none => []
      else []

theorem slug_char_fix (c : Char) (h : isSlugChar c = true) :
    (if (pyToLower c) = ' ' then '-' else pyToLower c) = c := by
  unfold isSlugChar at h
  simp only [Bool.or_eq_true, Bool.and_eq_true, decide_eq_true_eq, beq_iff_eq] at h
  have hc : ¬(65 ≤ c.toNat ∧ c.toNat ≤ 90) := by
    rcases h with (⟨h1, h2⟩ | ⟨h1, h2⟩) | h3 <;> omega
  have hlow : pyToLower c = c := by
    unfold pyToLower
    rw [if_neg hc]
  have hne : c ≠ ' ' := by
    intro he
    rw [he] at h
    revert h
    decide
  rw [hlow, if_neg hne]

theorem slug_eq_map_filter (s : Chars) :
    slug s = (s.map (fun c => if pyToLower c = ' ' then '-' else pyToLower c)).filter
      isSlugChar := by
  unfold slug
  rw [List.map_map]
  rfl

theorem slug_all_slugChar (s : Chars) : (slug s).all isSlugChar = true := by
  rw [slug_eq_map_filter, List.all_eq_true]
  intro a ha
  exact (List.mem_filter.mp ha).2

/-- C6: slug derivation is total (a function on all strings), produces only
characters in `[a-z0-9-]`, and is idempotent. -/
theorem C6_slug_total_range_idempotent (s : Chars) :
    (slug s).all isSlugChar = true ∧ slug (slug s) = slug s := by
  refine ⟨slug_all_slugChar s, ?_⟩
  have hall := slug_all_slugChar s
  rw [List.all_eq_true] at hall
  rw [slug_eq_map_filter (slug s)]
  rw [List.map_congr_left (g := id) (fun a ha => slug_char_fix a (hall a ha))]
  rw [List.map_id]
  exact List.filter_eq_self.mpr hall

theorem dictHas_dictSet (d : LinkMap) (kset v k : Chars)
    (h : dictHas (dictSet d kset v) k = true) : k = kset ∨ dictHas d k = true := by
  unfold dictSet at h
  unfold dictHas at h ⊢
  by_cases hc2 : d.any (fun kv => kv.1 == kset)
  · rw [if_pos hc2] at h
    rw [List.any_eq_true] at h ⊢
    obtain ⟨x, hmem, hk⟩ := h
    rw [List.mem_map] at hmem
    obtain ⟨kv, hkvmem, hfx⟩ := hmem
    by_cases he : (kv.1 == kset) = true
    · rw [if_pos he] at hfx
      subst hfx
      have : kset = k := by simpa using hk
      exact Or.inl this.symm
    · rw [if_neg he] at hfx
      subst hfx
      exact Or.inr ⟨kv, hkvmem, hk⟩
  · rw [if_neg hc2] at h
    rw [List.any_eq_true] at h ⊢
    obtain ⟨x, hmem, hk⟩ := h
    rw [List.mem_append] at hmem
    rcases hmem with hm | hm
    · exact Or.inr ⟨x, hm, hk⟩
    · simp only [List.mem_singleton] at hm
      subst hm
      have : kset = k := by simpa using hk
      exact Or.inl this.symm

theorem dictHas_linkStep (d : LinkMap) (g : Bool) (f : Option Chars) (key k : Chars)
    (h : dictHas (linkStep d g f key) k = true) : k = key ∨ dictHas d k = true := by
  unfold linkStep at h
  by_cases hg : g
  · rw [if_pos hg] at h
    cases hf : f with
    | some url => rw [hf] at h; exact dictHas_dictSet d key url k h
    | none => rw [hf] at h; exact Or.inr h
  · rw [if_neg hg] at h
    exact Or.inr h

/-- The five link keys, in decoder insertion order. -/
def linkKeys : List Chars :=
  [strL "playStore", strL "appStore", strL "github", strL "website", strL "apk"]

theorem decodeLinks_keys (part k : Chars) (h : dictHas (decodeLinks part) k = true) :
    k ∈ linkKeys := by
  unfold decodeLinks at h
  rcases dictHas_linkStep _ _ _ _ _ h with he | h
  · simp [linkKeys, he]
  rcases dictHas_linkStep _ _ _ _ _ h with he | h
  · simp [linkKeys, he]
  rcases dictHas_linkStep _ _ _ _ _ h with he | h
  · simp [linkKeys, he]
  rcases dictHas_linkStep _ _ _ _ _ h with he | h
  · simp [linkKeys, he]
  rcases dictHas_linkStep _ _ _ _ _ h with he | h
  · simp [linkKeys, he]
  simp [dictHas] at h

theorem parse_md_mem (content : Chars) (p : Project) (hp : p ∈ parse_md content) :
    ∃ part, part ∈ splitParts content ∧ occursIn (strL "## ") part = true ∧
      p = decodeProject part ∧ (!p.title.isEmpty) = true := by
  unfold parse_md at hp
  have h1 := List.mem_filter.mp hp
  obtain ⟨part, hpm, hpd⟩ := List.mem_map.mp h1.1
  have h2 := List.mem_filter.mp hpm
  exact ⟨part, h2.1, h2.2, hpd.symm, h1.2⟩

/-- C3 counterexample: a freshly constructed record has an empty links
mapping, and the decoder run on a block with no links returns a record
whose links mapping does not contain the key `playStore` — refuting
"contains all five keys". -/
theorem C3_counterexample :
    dictHas (({} : Project).links) (strL "playStore") = false ∧
    (parse_md (strL "## T")).map (fun p => dictHas p.links (strL "playStore")) = [false] := by
  constructor
  · rfl
  · decide

/-- C3 (amended): a record's links mapping starts empty and the decoder
inserts a key only when the corresponding link pattern is found, so keys
may be absent; every key the decoder ever inserts belongs to the fixed
set {playStore, appStore, website, github, apk}; an absent key reads as
the empty string. -/
theorem C3_links_keys_subset (content : Chars) (p : Project) (hp : p ∈ parse_md content)
    (k : Chars) (hk : dictHas p.links k = true) : k ∈ linkKeys := by
  obtain ⟨part, -, -, hpd, -⟩ := parse_md_mem content p hp
  subst hpd
  exact decodeLinks_keys part k hk

/-- Concrete block containing only a title and a GitHub link anchor. -/
def c3content : Chars := strL "## T\n<a href=\"https://github.com/u\">"

theorem C3_links_keys_subset_witness : strL "github" ∈ linkKeys :=
  C3_links_keys_subset c3content (decodeProject c3content)
    (by rw [show parse_md c3content = [decodeProject c3content] from rfl]
        exact List.mem_singleton.mpr rfl)
    (strL "github") (by decide)

/-- C10: every record returned by the decoder has `show_logo = true`: the
constructor default is `true` and the decoder only ever assigns `true`
(when a logo tag matches), never `false`; consequently a record encoded
with `show_logo = false` decodes with `show_logo = true`. -/
theorem C10_show_logo_always_true :
    (∀ content p, p ∈ parse_md content → p.show_logo = true) ∧
    (∀ part, (decodeProject part).show_logo = true) := by
  have hall : ∀ part, (decodeProject part).show_logo = true := by
    intro part
    show decodeShowLogo part = true
    unfold decodeShowLogo
    split <;> rfl
  refine ⟨?_, hall⟩
  intro content p hp
  obtain ⟨part, -, -, hpd, -⟩ := parse_md_mem content p hp
  subst hpd
  exact hall part

/-- Concrete record with `show_logo` explicitly `false`. -/
def showLogoFalseDemo : Project := { title := strL "Demo", show_logo := false }

theorem C10_show_logo_always_true_witness :
    showLogoFalseDemo.show_logo = false ∧
    (decodeProject (generate_project_md (fun _ => false) showLogoFalseDemo)).show_logo =
      true :=
  ⟨rfl, C10_show_logo_always_true.2 _⟩

/-- C8: the decoded categories are exactly the inline-code span contents
belonging to the fixed vocabulary; in particular a block with spans
Mobile App and Nonexistent decodes to just Mobile App, and a value
outside the vocabulary is never recognized (first conjunct). -/
theorem C8_categories_vocabulary :
    (∀ part c, c ∈ (decodeProject part).categories → c ∈ known_categories) ∧
    (decodeProject (strL "## T\n\n`Mobile App` `Nonexistent`")).categories =
      [strL "Mobile App"] := by
  constructor
  · intro part c hc
    have hc2 : c ∈ decodeCategories part := hc
    unfold decodeCategories at hc2
    have h := (List.mem_filter.mp hc2).2
    simpa using h
  · decide

theorem C8_categories_vocabulary_witness : strL "Mobile App" ∈ known_categories :=
  C8_categories_vocabulary.1 (strL "`Mobile App`") (strL "Mobile App") (by decide)

/-- C5: the decoder is best-effort and total: every kept record has a
non-empty title (blocks from which no non-empty title is recovered are
silently dropped, never reported), and each extraction that finds no
match leaves its field at the constructor default of `Project`.  The
embedding itself witnesses that decoding completes on every input: all
decoder functions are total, and the only partial-looking step of the
source (`int()` on a `width` capture) always receives a digit string. -/
theorem C5_best_effort_defaults :
    (∀ content, (parse_md content).all (fun p => !p.title.isEmpty) = true) ∧
    (∀ part, searchOpt titleAt part = none → (decodeProject part).title = ({} : Project).title) ∧
    (∀ part, searchOpt boldAt part = none →
      (decodeProject part).short_description = ({} : Project).short_description) ∧
    (∀ part, searchOpt pTagAt part = none →
      (decodeProject part).long_description = ({} : Project).long_description) ∧
    (∀ part, searchOpt techAt part = none →
      (decodeProject part).technologies = ({} : Project).technologies) ∧
    (∀ part, searchOpt featAt part = none →
      (decodeProject part).features = ({} : Project).features) ∧
    (∀ part, searchOpt imgBannerAt part = none →
      (decodeProject part).banner_image = ({} : Project).banner_image) ∧
    (∀ part, searchOpt imgLogoAt part = none →
      (decodeProject part).logo_url = ({} : Project).logo_url) ∧
    (∀ part, ssMatches part = [] → (decodeProject part).screenshots = ({} : Project).screenshots) ∧
    (∀ part, searchOpt widthAt part = none →
      (decodeProject part).screenshot_size = ({} : Project).screenshot_size) := by
  refine ⟨?_, ?_, ?_, ?_, ?_, ?_, ?_, ?_, ?_, ?_⟩
  · intro content
    unfold parse_md
    rw [List.all_eq_true]
    intro p hp
    exact (List.mem_filter.mp hp).2
  · intro part h
    show decodeTitle part = _
    unfold decodeTitle
    rw [h]
  · intro part h
    show decodeShort part = _
    unfold decodeShort
    rw [h]
  · intro part h
    show decodeLong part = _
    unfold decodeLong
    rw [h]
  · intro part h
    show decodeTechs part = _
    unfold decodeTechs
    rw [h]
  · intro part h
    show decodeFeatures part = _
    unfold decodeFeatures
    rw [h]
  · intro part h
    show decodeBanner part = _
    unfold decodeBanner
    rw [h]
  · intro part h
    show decodeLogo part = _
    unfold decodeLogo
    rw [h]
  · intro part h
    show decodeShots part = _
    unfold decodeShots
    rw [h]
    rfl
  · intro part h
    show decodeSize part = _
    unfold decodeSize
    rw [h]

theorem C5_best_effort_defaults_witness :
    (decodeProject (strL "x")).title = ({} : Project).title ∧
    (decodeProject (strL "x")).screenshot_size = ({} : Project).screenshot_size :=
  ⟨C5_best_effort_defaults.2.1 (strL "x") (by decide),
   (C5_best_effort_defaults.2.2.2.2.2.2.2.2.2) (strL "x") (by decide)⟩

/-- C9: the block filter tests the substring `"## "`, which every level-3
heading `"### …"` also contains, so the generated front-matter block
(whose only matching heading is `### About this Repository`) passes the
filter, the title regex recovers the level-3 heading text, and the block
is kept as a project: parsing the document generated for an empty
collection yields exactly this phantom project. -/
theorem C9_front_matter_kept_as_project :
    occursIn (strL "## ") (strL "### About this Repository") = true ∧
    (parse_md (generate_full_md (fun _ => false) (strL "June 01, 2025") [])).map
      Project.title = [strL "About this Repository"] := by
  constructor
  · decide
  · decide

/-- Concrete single-record collection used as the failing input of the
round-trip claim. -/
def c1demo : Project := { title := strL "Demo", categories := [strL "Game"] }

/-- C1: the round trip `decodeAll (encodeAll records)` does NOT preserve
length and title order: for the single record titled "Demo" the decoder
returns three projects, because the generated front matter and the table
of contents are decoded as phantom projects ahead of the real one (the
block filter `"## " in part` also fires on `###` headings, against the
spec's stated intent of discarding front matter).  This theorem evaluates
the code at the failing input. -/
theorem C1_roundtrip_length_violated :
    (parse_md (generate_full_md (fun _ => false) (strL "June 01, 2025") [c1demo])).map
      Project.title =
      [strL "About this Repository", strL "📋 Contents", strL "Demo"] ∧
    ((parse_md (generate_full_md (fun _ => false) (strL "June 01, 2025") [c1demo])).length =
      [c1demo].length) = False := by
  constructor
  · decide
  · decide

theorem tryExts_all_missing (ex : Chars → Bool) (dir num : Chars) (l : List Chars)
    (h : ∀ e ∈ l, ex (pyJoin dir (num ++ e)) = false) : tryExts ex dir num l = [] := by
  induction l with
  | nil => rfl
  | cons e rest ih =>
    unfold tryExts
    rw [h e (List.mem_cons_self e rest)]
    simp only [Bool.false_eq_true, if_false]
    exact ih (fun e' he' => h e' (List.mem_cons_of_mem e he'))

/-- C7: the image resolver tries, in order: the path itself when absolute
and existing; the path relative to the document directory; the file in
the project image folder with the same base name; the numeric-token
fallback over the five known extensions; and returns the empty string
when nothing matches (it is a total function, so it cannot raise). -/
theorem C7_resolver_cascade (ex : Chars → Bool) (fp : Option Chars) (imgDir path : Chars) :
    (path = [] → resolve_image_path ex fp imgDir path = []) ∧
    (path ≠ [] → (pyIsAbs path && ex path) = true →
      resolve_image_path ex fp imgDir path = path) ∧
    (path ≠ [] → (pyIsAbs path && ex path) = false →
      ∀ f, fp = some f → ex (pyJoin (pyDirname f) path) = true →
        resolve_image_path ex fp imgDir path = pyJoin (pyDirname f) path) ∧
    (path ≠ [] → (pyIsAbs path && ex path) = false →
      (match fp with
        | some f => ex (pyJoin (pyDirname f) path) = false
        | none => True) →
      imgDir ≠ [] → ex (pyJoin imgDir (pyBasename path)) = true →
        resolve_image_path ex fp imgDir path = pyJoin imgDir (pyBasename path)) ∧
    (path ≠ [] → (pyIsAbs path && ex path) = false →
      (match fp with
        | some f => ex (pyJoin (pyDirname f) path) = false
        | none => True) →
      imgDir ≠ [] → ex (pyJoin imgDir (pyBasename path)) = false →
      ∀ num, searchOpt numTokenAt (pyBasename path) = some num →
        resolve_image_path ex fp imgDir path = tryExts ex imgDir num resolveExts) ∧
    (path ≠ [] → (pyIsAbs path && ex path) = false →
      (match fp with
        | some f => ex (pyJoin (pyDirname f) path) = false
        | none => True) →
      imgDir ≠ [] → ex (pyJoin imgDir (pyBasename path)) = false →
      searchOpt numTokenAt (pyBasename path) = none →
        resolve_image_path ex fp imgDir path = []) ∧
    (path ≠ [] → (pyIsAbs path && ex path) = false →
      (match fp with
        | some f => ex (pyJoin (pyDirname f) path) = false
        | none => True) →
      imgDir = [] → resolve_image_path ex fp imgDir path = []) := by
  have hne : ∀ q : Chars, q ≠ [] → q.isEmpty = false := by
    intro q hq
    cases q with
    | nil => exact absurd rfl hq
    | cons a as => rfl
  refine ⟨?_, ?_, ?_, ?_, ?_, ?_, ?_⟩
  · intro h
    subst h
    rfl
  · intro h habs
    unfold resolve_image_path
    rw [hne path h, habs]
    rfl
  · intro h habs f hfp hex
    unfold resolve_image_path
    rw [hne path h, habs, hfp]
    simp [hex]
  · intro h habs h2 hid hex
    unfold resolve_image_path
    rw [hne path h, habs]
    cases fp with
    | none => simp [hne imgDir hid, hex]
    | some f =>
      simp only at h2
      simp [h2, hne imgDir hid, hex]
  · intro h habs h2 hid hex num hnum
    unfold resolve_image_path
    rw [hne path h, habs]
    cases fp with
    | none => simp [hne imgDir hid, hex, hnum]
    | some f =>
      simp only at h2
      simp [h2, hne imgDir hid, hex, hnum]
  · intro h habs h2 hid hex hnum
    unfold resolve_image_path
    rw [hne path h, habs]
    cases fp with
    | none => simp [hne imgDir hid, hex, hnum]
    | some f =>
      simp only at h2
      simp [h2, hne imgDir hid, hex, hnum]
  · intro h habs h2 hid
    unfold resolve_image_path
    rw [hne path h, habs]
    subst hid
    cases fp with
    | none => rfl
    | some f =>
      simp only at h2
      simp [h2]

theorem C7_resolver_cascade_witness :
    resolve_image_path (fun s => s == strL "/abs.png") none [] (strL "/abs.png") =
      strL "/abs.png" ∧
    resolve_image_path (fun _ => false) none (strL "base/images/demo")
      (strL "screenshot_3.png") = [] :=
  ⟨(C7_resolver_cascade (fun s => s == strL "/abs.png") none [] (strL "/abs.png")).2.1
      (by decide) (by decide),
   (C7_resolver_cascade (fun _ => false) none (strL "base/images/demo")
      (strL "screenshot_3.png")).2.2.2.2.1
      (by decide) (by decide) (by trivial) (by decide) (by decide) (strL "3") (by decide) |>.trans
      (tryExts_all_missing (fun _ => false) (strL "base/images/demo") (strL "3") resolveExts
        (by decide))⟩

/-- Test for a grid-table row-open line. -/
def isTrLine (l : Chars) : Bool := l == strL "  <tr>"

/-- Test for the empty grid cell emitted for a trailing odd slot. -/
def isEmptyTdLine (l : Chars) : Bool := l == strL "    <td></td>"

theorem isTr_img (u : Chars) : isTrLine (strL "<img src=\"" ++ u) = false := rfl
theorem isTr_sharp (u : Chars) : isTrLine (strL "## " ++ u) = false := rfl
theorem isTr_tick (u : Chars) : isTrLine (tickC :: u) = false := rfl
theorem isTr_bold (u : Chars) : isTrLine (strL "**" ++ u) = false := rfl
theorem isTr_ptag (u : Chars) : isTrLine (strL "<p>" ++ u) = false := rfl
theorem isTr_badge (u : Chars) : isTrLine (strL "  " ++ (strL "<a href=\"" ++ u)) = false := rfl
theorem isTr_code (u : Chars) : isTrLine (strL "  <code>" ++ u) = false := rfl
theorem isTr_dash (u : Chars) : isTrLine (strL "- " ++ u) = false := rfl
theorem isTr_cell (u : Chars) : isTrLine (strL "    <td align=\"center\"><img src=\"images/" ++ u) = false := rfl
theorem isTr_divstyle (u : Chars) : isTrLine (strL "<div style=\"" ++ u) = false := rfl
theorem isTr_nil : isTrLine [] = false := rfl

theorem isTd_img (u : Chars) : isEmptyTdLine (strL "<img src=\"" ++ u) = false := rfl
theorem isTd_sharp (u : Chars) : isEmptyTdLine (strL "## " ++ u) = false := rfl
theorem isTd_tick (u : Chars) : isEmptyTdLine (tickC :: u) = false := rfl
theorem isTd_bold (u : Chars) : isEmptyTdLine (strL "**" ++ u) = false := rfl
theorem isTd_ptag (u : Chars) : isEmptyTdLine (strL "<p>" ++ u) = false := rfl
theorem isTd_badge (u : Chars) : isEmptyTdLine (strL "  " ++ (strL "<a href=\"" ++ u)) = false := rfl
theorem isTd_code (u : Chars) : isEmptyTdLine (strL "  <code>" ++ u) = false := rfl
theorem isTd_dash (u : Chars) : isEmptyTdLine (strL "- " ++ u) = false := rfl
theorem isTd_cell (u : Chars) : isEmptyTdLine (strL "    <td align=\"center\"><img src=\"images/" ++ u) = false := rfl
theorem isTd_divstyle (u : Chars) : isEmptyTdLine (strL "<div style=\"" ++ u) = false := rfl
theorem isTd_nil : isEmptyTdLine [] = false := rfl

theorem isTr_trOpen : isTrLine (strL "  <tr>") = true := rfl
theorem isTr_trClose : isTrLine (strL "  </tr>") = false := rfl
theorem isTr_emptyTd : isTrLine (strL "    <td></td>") = false := rfl
theorem isTd_trOpen : isEmptyTdLine (strL "  <tr>") = false := rfl
theorem isTd_trClose : isEmptyTdLine (strL "  </tr>") = false := rfl
theorem isTd_emptyTd : isEmptyTdLine (strL "    <td></td>") = true := rfl

theorem gridCell_shape (id : Chars) (size : Nat) (i : Nat) (ss : Chars) :
    ∃ u, gridCell id size i ss = strL "    <td align=\"center\"><img src=\"images/" ++ u := by
  refine ⟨id ++ (strL "/" ++ (natToChars i ++ (extOf ss ++ (strL "\" width=\"" ++
    (natToChars size ++ strL "\"></td>"))))), ?_⟩
  unfold gridCell
  simp [List.append_assoc]

theorem gridRows_count_tr (id : Chars) (size : Nat) :
    ∀ (i : Nat) (shots : List Chars),
      (gridRows id size i shots).countP isTrLine = (shots.length + 1) / 2
  | _, [] => by simp [gridRows]
  | i, [ss] => by
    obtain ⟨u, hu⟩ := gridCell_shape id size i ss
    simp [gridRows, List.countP_cons, hu, isTr_cell]
    rfl
  | i, ss1 :: ss2 :: rest => by
    obtain ⟨u1, hu1⟩ := gridCell_shape id size i ss1
    obtain ⟨u2, hu2⟩ := gridCell_shape id size (i + 1) ss2
    rw [gridRows]
    rw [List.countP_append]
    rw [gridRows_count_tr id size (i + 2) rest]
    simp [List.countP_cons, hu1, hu2, isTr_cell, isTr_trOpen, isTr_trClose]
    omega

theorem gridRows_count_td (id : Chars) (size : Nat) :
    ∀ (i : Nat) (shots : List Chars),
      (gridRows id size i shots).countP isEmptyTdLine =
        (if shots.length % 2 = 1 then 1 else 0)
  | _, [] => by simp [gridRows]
  | i, [ss] => by
    obtain ⟨u, hu⟩ := gridCell_shape id size i ss
    simp [gridRows, List.countP_cons, hu, isTd_cell]
    rfl
  | i, ss1 :: ss2 :: rest => by
    obtain ⟨u1, hu1⟩ := gridCell_shape id size i ss1
    obtain ⟨u2, hu2⟩ := gridCell_shape id size (i + 1) ss2
    rw [gridRows]
    rw [List.countP_append]
    rw [gridRows_count_td id size (i + 2) rest]
    simp only [List.countP_cons, List.countP_nil, hu1, hu2, isTd_cell, isTd_trOpen,
      isTd_trClose, List.length_cons, Bool.false_eq_true, if_false, Nat.add_zero,
      Nat.zero_add]
    have h2 : (rest.length + 1 + 1) % 2 = rest.length % 2 := by omega
    simp only [h2]

theorem gridRows_last_row_odd (id : Chars) (size : Nat) :
    ∀ (i : Nat) (shots : List Chars), shots.length % 2 = 1 →
      ∃ pre ss, gridRows id size i shots =
        pre ++ [strL "  <tr>", gridCell id size (i + shots.length - 1) ss,
          strL "    <td></td>", strL "  </tr>"]
  | _, [], h => by simp at h
  | i, [ss], _ => by
    refine ⟨[], ss, ?_⟩
    simp [gridRows]
  | i, ss1 :: ss2 :: rest, h => by
    have hr : rest.length % 2 = 1 := by simp at h; omega
    obtain ⟨pre, ss, hps⟩ := gridRows_last_row_odd id size (i + 2) rest hr
    refine ⟨[strL "  <tr>", gridCell id size i ss1, gridCell id size (i + 1) ss2,
      strL "  </tr>"] ++ pre, ss, ?_⟩
    rw [gridRows, hps]
    simp only [List.append_assoc, List.cons_append, List.nil_append, List.length_cons]
    have : i + 2 + rest.length - 1 = i + (rest.length + 1 + 1) - 1 := by omega
    rw [this]

theorem intercalate_single (sep x : Chars) : List.intercalate sep [x] = x := by
  simp [List.intercalate]

theorem intercalate_cons2 (sep x y : Chars) (ys : List Chars) :
    List.intercalate sep (x :: y :: ys) = x ++ sep ++ List.intercalate sep (y :: ys) := by
  simp [List.intercalate, List.intersperse_cons_cons]

theorem catBadges_cons (c : Chars) (cs : List Chars) :
    ∃ r, catBadges (c :: cs) = tickC :: r := by
  unfold catBadges
  cases cs with
  | nil =>
    refine ⟨c ++ [tickC], ?_⟩
    simp [intercalate_single]
  | cons d ds =>
    refine ⟨(c ++ [tickC]) ++ strL " " ++
      List.intercalate (strL " ") ((d :: ds).map (fun c => tickC :: (c ++ [tickC]))), ?_⟩
    simp [intercalate_cons2]

theorem linkBadges_shape (links : LinkMap) (tc : Chars) :
    ∀ b ∈ linkBadges links tc, ∃ u, b = strL "<a href=\"" ++ u := by
  intro b hb
  unfold linkBadges at hb
  simp only [List.mem_append] at hb
  rcases hb with ((((hb | hb) | hb) | hb) | hb) <;>
    [skip; skip; skip; skip; skip] <;>
    · split at hb
      · simp only [List.mem_singleton] at hb
        subst hb
        exact ⟨_, rfl⟩
      · simp at hb

theorem countP_linkLines (pred : Chars → Bool) (links : LinkMap) (tc : Chars)
    (hb : ∀ u, pred (strL "  " ++ (strL "<a href=\"" ++ u)) = false)
    (h1 : pred (strL "<p>") = false) (h2 : pred (strL "</p>") = false)
    (h3 : pred [] = false) : (linkLines links tc).countP pred = 0 := by
  unfold linkLines
  dsimp only
  split
  · rfl
  · have hm : ((linkBadges links tc).map (fun b => strL "  " ++ b)).countP pred = 0 := by
      rw [List.countP_eq_zero]
      intro l hl
      rw [List.mem_map] at hl
      obtain ⟨b, hbm, hlb⟩ := hl
      obtain ⟨u, hu⟩ := linkBadges_shape links tc b hbm
      rw [← hlb, hu]
      simp [hb u]
    simp only [List.countP_append, List.countP_cons, List.countP_nil, hm, h1, h2, h3,
      Bool.false_eq_true, if_false]

theorem countP_techLines (pred : Chars → Bool) (techs : List Chars)
    (hc : ∀ u, pred (strL "  <code>" ++ u) = false)
    (hh : pred (strL "### Tech Stack") = false)
    (h1 : pred (strL "<p>") = false) (h2 : pred (strL "</p>") = false)
    (h3 : pred [] = false) : (techLines techs).countP pred = 0 := by
  unfold techLines
  split
  · rfl
  · have hm : (techs.map (fun t => strL "  <code>" ++ t ++ strL "</code>")).countP pred = 0 := by
      rw [List.countP_eq_zero]
      intro l hl
      rw [List.mem_map] at hl
      obtain ⟨t, htm, hlt⟩ := hl
      rw [← hlt, List.append_assoc]
      simp [hc (t ++ strL "</code>")]
    simp only [List.countP_append, List.countP_cons, List.countP_nil, hm, hh, h1, h2, h3,
      Bool.false_eq_true, if_false]

theorem countP_featLines (pred : Chars → Bool) (feats : List Chars)
    (hd : ∀ u, pred (strL "- " ++ u) = false)
    (hh : pred (strL "### Features") = false)
    (h3 : pred [] = false) : (featLines feats).countP pred = 0 := by
  unfold featLines
  split
  · rfl
  · have hm : (feats.map (fun f => strL "- " ++ f)).countP pred = 0 := by
      rw [List.countP_eq_zero]
      intro l hl
      rw [List.mem_map] at hl
      obtain ⟨t, htm, hlt⟩ := hl
      rw [← hlt]
      simp [hd t]
    simp only [List.countP_append, List.countP_cons, List.countP_nil, hm, hh, h3,
      Bool.false_eq_true, if_false]

theorem countP_pair (pred : Chars → Bool) (x : Chars) (hx : pred x = false)
    (hnil : pred [] = false) : ([x, []] : List Chars).countP pred = 0 := by
  simp [List.countP_cons, hx, hnil]

theorem countP_ite_pair (pred : Chars → Bool) (c : Prop) [Decidable c] (x : Chars)
    (hx : pred x = false) (hnil : pred [] = false) :
    (if c then ([x, []] : List Chars) else []).countP pred = 0 := by
  split
  · exact countP_pair pred x hx hnil
  · rfl

theorem pred_catBadges (pred : Chars → Bool) (cats : List Chars)
    (hTick : ∀ u, pred (tickC :: u) = false) (hNil : pred [] = false) :
    pred (catBadges cats) = false := by
  cases cats with
  | nil => exact hNil
  | cons c cs =>
    obtain ⟨r, hr⟩ := catBadges_cons c cs
    rw [hr]
    exact hTick r

theorem ssLines_grid_countP (pred : Chars → Bool) (id : Chars) (size : Nat)
    (shots : List Chars) (hs : shots ≠ [])
    (hSSHead : pred (strL "### Screenshots") = false)
    (hTable : pred (strL "<table align=\"center\">") = false)
    (hTableC : pred (strL "</table>") = false)
    (hNil : pred [] = false) :
    (ssLines id (strL "grid") size shots).countP pred =
      (gridRows id size 1 shots).countP pred := by
  unfold ssLines
  have hse : shots.isEmpty = false := by
    cases shots with
    | nil => exact absurd rfl hs
    | cons a as => rfl
  rw [hse]
  have hgh : ((strL "grid" : Chars) == strL "horizontal") = false := rfl
  have hgg : ((strL "grid" : Chars) == strL "grid") = true := rfl
  simp only [Bool.false_eq_true, if_false, hgh, hgg, if_true]
  simp only [List.countP_append, List.countP_cons, List.countP_nil, hSSHead, hTable,
    hTableC, hNil, Bool.false_eq_true, if_false]
  omega

theorem countP_content_grid (fs : Chars → Bool) (p : Project) (pred : Chars → Bool)
    (hl : p.screenshot_layout = strL "grid") (hn : p.screenshots ≠ [])
    (hImg : ∀ u, pred (strL "<img src=\"" ++ u) = false)
    (hSharp : ∀ u, pred (strL "## " ++ u) = false)
    (hTick : ∀ u, pred (tickC :: u) = false)
    (hBold : ∀ u, pred (strL "**" ++ u) = false)
    (hPtag : ∀ u, pred (strL "<p>" ++ u) = false)
    (hBadge : ∀ u, pred (strL "  " ++ (strL "<a href=\"" ++ u)) = false)
    (hCode : ∀ u, pred (strL "  <code>" ++ u) = false)
    (hDash : ∀ u, pred (strL "- " ++ u) = false)
    (hNil : pred [] = false)
    (hPopen : pred (strL "<p>") = false)
    (hPclose : pred (strL "</p>") = false)
    (hDivOpen : pred (strL "<div align=\"center\">") = false)
    (hDivClose : pred (strL "</div>") = false)
    (hTechHead : pred (strL "### Tech Stack") = false)
    (hFeatHead : pred (strL "### Features") = false)
    (hSSHead : pred (strL "### Screenshots") = false)
    (hTable : pred (strL "<table align=\"center\">") = false)
    (hTableC : pred (strL "</table>") = false) :
    (generate_project_content fs p).countP pred =
      (gridRows p.id (if p.screenshot_size = 0 then 200 else p.screenshot_size) 1
        p.screenshots).countP pred := by
  unfold generate_project_content
  rw [hl]
  rw [show (if (strL "grid" : Chars).isEmpty then strL "horizontal" else strL "grid") =
    strL "grid" from rfl]
  have hnorm : ∀ (a b c : Chars), a ++ b ++ c = a ++ (b ++ c) := fun a b c =>
    List.append_assoc a b c
  simp only [List.countP_append]
  rw [countP_pair pred _ hDivOpen hNil]
  rw [countP_ite_pair pred _ _ (by rw [hnorm, hnorm, hnorm]; exact hImg _) hNil]
  rw [countP_pair pred _ (hSharp _) hNil]
  rw [countP_ite_pair pred _ _ (pred_catBadges pred _ hTick hNil) hNil]
  rw [countP_ite_pair pred _ _ (by rw [hnorm, hnorm, hnorm]; exact hImg _) hNil]
  rw [countP_ite_pair pred _ _ (by rw [hnorm]; exact hBold _) hNil]
  rw [countP_ite_pair pred _ _ (by rw [hnorm]; exact hPtag _) hNil]
  rw [countP_linkLines pred _ _ hBadge hPopen hPclose hNil]
  rw [countP_techLines pred _ hCode hTechHead hPopen hPclose hNil]
  rw [countP_featLines pred _ hDash hFeatHead hNil]
  rw [ssLines_grid_countP pred _ _ _ hn hSSHead hTable hTableC hNil]
  rw [countP_pair pred _ hDivClose hNil]
  omega

theorem countP_generate_lines (fs : Chars → Bool) (p : Project) (pred : Chars → Bool)
    (hDivStyle : ∀ u, pred (strL "<div style=\"" ++ u) = false)
    (hDivClose : pred (strL "</div>") = false)
    (hNil : pred [] = false) :
    (generate_project_lines fs p).countP pred =
      (generate_project_content fs p).countP pred := by
  unfold generate_project_lines
  dsimp only
  generalize (if p.border_style.isEmpty then strL "rounded" else p.border_style) = bs
  split
  · simp only [List.countP_append]
    rw [countP_pair pred _ (by rw [List.append_assoc]; exact hDivStyle _) hNil]
    rw [show (([strL "</div>"] : List Chars).countP pred) = 0 by
      simp [List.countP_cons, hDivClose]]
    omega
  · rfl

/-- C4: for a grid-layout record with N screenshots the encoder emits
exactly ceil(N/2) table rows (row-open lines), an empty cell line appears
exactly when N is odd, and when N is odd that empty cell is the second
cell of the last emitted row. -/
theorem C4_grid_table (fs : Chars → Bool) (p : Project)
    (hl : p.screenshot_layout = strL "grid") (hn : p.screenshots ≠ []) :
    (generate_project_lines fs p).countP isTrLine = (p.screenshots.length + 1) / 2 ∧
    (generate_project_lines fs p).countP isEmptyTdLine =
      (if p.screenshots.length % 2 = 1 then 1 else 0) ∧
    (p.screenshots.length % 2 = 1 → ∀ id size i, ∃ pre ss,
      gridRows id size i p.screenshots = pre ++ [strL "  <tr>",
        gridCell id size (i + p.screenshots.length - 1) ss, strL "    <td></td>",
        strL "  </tr>"]) := by
  refine ⟨?_, ?_, ?_⟩
  · rw [countP_generate_lines fs p isTrLine isTr_divstyle (by rfl) isTr_nil]
    rw [countP_content_grid fs p isTrLine hl hn isTr_img isTr_sharp isTr_tick isTr_bold
      isTr_ptag isTr_badge isTr_code isTr_dash isTr_nil (by rfl) (by rfl) (by rfl)
      (by rfl) (by rfl) (by rfl) (by rfl) (by rfl) (by rfl)]
    exact gridRows_count_tr _ _ 1 p.screenshots
  · rw [countP_generate_lines fs p isEmptyTdLine isTd_divstyle (by rfl) isTd_nil]
    rw [countP_content_grid fs p isEmptyTdLine hl hn isTd_img isTd_sharp isTd_tick
      isTd_bold isTd_ptag isTd_badge isTd_code isTd_dash isTd_nil (by rfl) (by rfl)
      (by rfl) (by rfl) (by rfl) (by rfl) (by rfl) (by rfl) (by rfl)]
    exact gridRows_count_td _ _ 1 p.screenshots
  · intro hodd id size i
    exact gridRows_last_row_odd id size i p.screenshots hodd

/-- Concrete grid-layout record with three screenshots. -/
def c4proj : Project :=
  { title := strL "G", screenshot_layout := strL "grid",
    screenshots := [strL "a.png", strL "b.png", strL "c.png"],
    screenshots_local_paths := [strL "a.png", strL "b.png", strL "c.png"] }

theorem C4_grid_table_witness :
    (generate_project_lines (fun _ => false) c4proj).countP isTrLine = 2 ∧
    (generate_project_lines (fun _ => false) c4proj).countP isEmptyTdLine = 1 := by
  have h := C4_grid_table (fun _ => false) c4proj rfl (by decide)
  exact ⟨h.1.trans (by rfl), (h.2.1).trans (by rfl)⟩

/-! ### String-scanning toolbox for the field-level round-trip analysis
(claim C2).  The lemmas characterise where a literal-headed pattern can
match inside a concatenation, so that each decoder search can be walked
line by line over the generated document. -/

theorem matchLit_append_right (pat t z : Chars) (h : matchLit pat t = true) :
    matchLit pat (t ++ z) = true := by
  induction pat generalizing t with
  | nil => rfl
  | cons p ps ih =>
    cases t with
    | nil => simp [matchLit] at h
    | cons c cs =>
      simp [matchLit] at h ⊢
      exact ⟨h.1, ih cs h.2⟩

theorem matchLit_self_append (pat z : Chars) : matchLit pat (pat ++ z) = true := by
  induction pat with
  | nil => rfl
  | cons p ps ih => simp [matchLit, ih]

theorem matchLit_sep (pat t : Chars) (c : Char) (x : Chars)
    (h : matchLit pat (t ++ c :: x) = true) :
    (pat.length ≤ t.length ∧ matchLit pat t = true) ∨ c ∈ pat := by
  induction pat generalizing t with
  | nil => exact Or.inl ⟨by simp, rfl⟩
  | cons p ps ih =>
    cases t with
    | nil =>
      simp [matchLit] at h
      exact Or.inr (by simp [h.1])
    | cons a as =>
      simp [matchLit] at h
      rcases ih as h.2 with ⟨hl, hm⟩ | hmem
      · refine Or.inl ⟨by simp; omega, ?_⟩
        simp [matchLit, h.1, hm]
      · exact Or.inr (by simp [hmem])

theorem matchLit_mem (pat s : Chars) (h : matchLit pat s = true) : ∀ c ∈ pat, c ∈ s := by
  induction pat generalizing s with
  | nil => simp
  | cons p ps ih =>
    cases s with
    | nil => simp [matchLit] at h
    | cons a as =>
      simp [matchLit] at h
      intro c hc
      rcases List.mem_cons.mp hc with rfl | hc'
      · simp [h.1]
      · exact List.mem_cons_of_mem a (ih as h.2 c hc')

theorem matchLit_nil_true (pat : Chars) (h : matchLit pat [] = true) : pat = [] := by
  cases pat with
  | nil => rfl
  | cons p ps => simp [matchLit] at h

theorem matchLit_drop (x y t : Chars) (h : matchLit (x ++ y) t = true) :
    matchLit y (t.drop x.length) = true := by
  induction x generalizing t with
  | nil => simpa using h
  | cons a as ih =>
    cases t with
    | nil => simp [matchLit] at h
    | cons c cs =>
      simp [matchLit] at h
      simpa using ih cs h.2

theorem matchLit_left (x y t : Chars) (h : matchLit (x ++ y) t = true) :
    matchLit x t = true := by
  induction x generalizing t with
  | nil => rfl
  | cons a as ih =>
    cases t with
    | nil => simp [matchLit] at h
    | cons c cs =>
      simp [matchLit] at h ⊢
      exact ⟨h.1, ih cs h.2⟩

theorem matchLit_head_false (p0 : Char) (ps : Chars) (c : Char) (cs : Chars)
    (h : (p0 == c) = false) : matchLit (p0 :: ps) (c :: cs) = false := by
  simp [matchLit]
  intro he
  simp [he] at h

theorem occursIn_of_matchLit (pat s : Chars) (h : matchLit pat s = true) :
    occursIn pat s = true := by
  cases s with
  | nil => simpa [occursIn] using h
  | cons c cs => simp [occursIn, h]

theorem occursIn_drop (pat s : Chars) (n : Nat) (h : matchLit pat (s.drop n) = true) :
    occursIn pat s = true := by
  induction s generalizing n with
  | nil => simpa [occursIn] using h
  | cons c cs ih =>
    cases n with
    | zero => exact occursIn_of_matchLit _ _ h
    | succ m =>
      rw [occursIn, Bool.or_eq_true]
      exact Or.inr (ih m (by simpa using h))

theorem occursIn_nil_pat (s : Chars) : occursIn ([] : Chars) s = true := by
  cases s <;> rfl

theorem occursIn_cons_elim (pat : Chars) (c : Char) (cs : Chars)
    (h : occursIn pat (c :: cs) = false) :
    matchLit pat (c :: cs) = false ∧ occursIn pat cs = false := by
  rw [occursIn, Bool.or_eq_false_iff] at h
  exact h

theorem drop_head_mem (s : Chars) (n : Nat) (hn : n < s.length) :
    ∃ c t, s.drop n = c :: t ∧ c ∈ s := by
  induction s generalizing n with
  | nil => simp at hn
  | cons a as ih =>
    cases n with
    | zero => exact ⟨a, as, rfl, by simp⟩
    | succ m =>
      obtain ⟨c, t, hct, hc⟩ := ih m (by simp at hn; omega)
      exact ⟨c, t, by simpa using hct, by simp [hc]⟩

theorem occursIn_append_false (pat x y : Chars)
    (hx : ∀ n, n < x.length → matchLit pat (x.drop n ++ y) = false)
    (hy : occursIn pat y = false) : occursIn pat (x ++ y) = false := by
  induction x with
  | nil => simpa using hy
  | cons a as ih =>
    have h0 := hx 0 (by simp)
    simp only [List.drop_zero, List.cons_append] at h0
    rw [List.cons_append, occursIn, h0, Bool.false_or]
    exact ih (fun n hn => by simpa using hx (n + 1) (by simp; omega))

theorem occursIn_char_absence (pat s : Chars) (c : Char) (hc : c ∈ pat)
    (hs : c ∈ s → False) : occursIn pat s = false := by
  induction s with
  | nil =>
    cases pat with
    | nil => simp at hc
    | cons p ps => rfl
  | cons a as ih =>
    cases hm : matchLit pat (a :: as) with
    | true => exact absurd (matchLit_mem pat _ hm c hc) hs
    | false =>
      rw [occursIn, hm, Bool.false_or]
      exact ih (fun h' => hs (List.mem_cons_of_mem a h'))

theorem occursIn_sep (pat x y : Chars) (c : Char) (hc : c ∈ pat → False) (hne : pat ≠ []) :
    occursIn pat (x ++ c :: y) = (occursIn pat x || occursIn pat y) := by
  induction x with
  | nil =>
    have h0 : occursIn pat ([] : Chars) = false := by
      cases pat with
      | nil => exact absurd rfl hne
      | cons p ps => rfl
    rw [List.nil_append, h0, Bool.false_or, occursIn]
    have hm : matchLit pat (c :: y) = false := by
      cases pat with
      | nil => exact absurd rfl hne
      | cons p ps =>
        apply matchLit_head_false
        cases hb : (p == c) with
        | false => rfl
        | true =>
          rw [beq_iff_eq] at hb
          exact absurd (by simp [hb]) hc
    rw [hm, Bool.false_or]
  | cons a as ih =>
    rw [List.cons_append]
    rw [show occursIn pat (a :: (as ++ c :: y)) =
      (matchLit pat (a :: (as ++ c :: y)) || occursIn pat (as ++ c :: y)) from rfl]
    rw [ih]
    rw [show occursIn pat (a :: as) = (matchLit pat (a :: as) || occursIn pat as) from rfl]
    cases hm : matchLit pat (a :: (as ++ c :: y)) with
    | true =>
      have hm' : matchLit pat ((a :: as) ++ c :: y) = true := by simpa using hm
      rcases matchLit_sep pat (a :: as) c y hm' with ⟨_, hmt⟩ | hmem
      · simp [hmt]
      · exact absurd hmem hc
    | false =>
      have hm' : matchLit pat (a :: as) = false := by
        cases hmm : matchLit pat (a :: as) with
        | false => rfl
        | true =>
          have hext := matchLit_append_right pat (a :: as) (c :: y) hmm
          rw [List.cons_append] at hext
          rw [hext] at hm
          exact Bool.noConfusion hm
      simp [hm', Bool.or_assoc]

theorem occursIn_mono (sub pre post s : Chars)
    (h : occursIn (pre ++ sub ++ post) s = true) : occursIn sub s = true := by
  induction s with
  | nil =>
    have hml : matchLit (pre ++ sub ++ post) [] = true := h
    have := matchLit_nil_true _ hml
    rcases List.append_eq_nil.mp this with ⟨h1, h2⟩
    rcases List.append_eq_nil.mp h1 with ⟨_, h4⟩
    subst h4
    exact occursIn_nil_pat []
  | cons a as ih =>
    rw [occursIn, Bool.or_eq_true] at h
    rcases h with hm | ho
    · have h1 := matchLit_drop pre (sub ++ post) (a :: as) (by simpa using hm)
      have h2 := matchLit_left sub post _ h1
      exact occursIn_drop sub (a :: as) pre.length h2
    · rw [occursIn, Bool.or_eq_true]
      exact Or.inr (ih ho)

theorem matchLit_quote_align (p q t B : Chars) (hp : '"' ∈ p → False)
    (ht : '"' ∈ t → False)
    (h : matchLit (p ++ '"' :: q) (t ++ '"' :: B) = true) :
    t = p ∧ matchLit q B = true := by
  induction p generalizing t with
  | nil =>
    cases t with
    | nil => simpa using h
    | cons c cs =>
      simp [matchLit] at h
      exact absurd (by simp [← h.1]) ht
  | cons a as ih =>
    cases t with
    | nil =>
      simp [matchLit] at h
      exact absurd (by simp [h.1]) hp
    | cons c cs =>
      simp [matchLit] at h
      obtain ⟨hcs, hq⟩ := ih cs (fun h' => hp (List.mem_cons_of_mem a h'))
        (fun h' => ht (List.mem_cons_of_mem c h')) h.2
      exact ⟨by rw [h.1, hcs], hq⟩

theorem takeWhile_append_stop (pr : Char → Bool) (x : Chars) (c : Char) (y : Chars)
    (hx : ∀ d ∈ x, pr d = true) (hc : pr c = false) :
    (x ++ c :: y).takeWhile pr = x := by
  induction x with
  | nil => simp [List.takeWhile_cons, hc]
  | cons a as ih =>
    have ha : pr a = true := hx a (by simp)
    rw [List.cons_append]
    rw [show (a :: (as ++ c :: y)).takeWhile pr = a :: (as ++ c :: y).takeWhile pr by
      simp [List.takeWhile_cons, ha]]
    rw [ih (fun d hd => hx d (by simp [hd]))]

theorem dropWhile_append_stop (pr : Char → Bool) (x : Chars) (c : Char) (y : Chars)
    (hx : ∀ d ∈ x, pr d = true) (hc : pr c = false) :
    (x ++ c :: y).dropWhile pr = c :: y := by
  induction x with
  | nil => simp [List.dropWhile_cons, hc]
  | cons a as ih =>
    have ha : pr a = true := hx a (by simp)
    rw [List.cons_append]
    rw [show (a :: (as ++ c :: y)).dropWhile pr = (as ++ c :: y).dropWhile pr by
      simp [List.dropWhile_cons, ha]]
    exact ih (fun d hd => hx d (by simp [hd]))

theorem joinNL_cons (L : Chars) (rest : List Chars) (h : rest ≠ []) :
    joinNL (L :: rest) = L ++ '\n' :: joinNL rest := by
  cases rest with
  | nil => exact absurd rfl h
  | cons y ys =>
    unfold joinNL
    rw [intercalate_cons2]
    simp [strL, List.append_assoc]

theorem joinNL_single (L : Chars) : joinNL [L] = L := intercalate_single _ L

theorem mem_joinNL (lines : List Chars) (c : Char) (h : c ∈ joinNL lines) :
    c = '\n' ∨ ∃ l ∈ lines, c ∈ l := by
  induction lines with
  | nil => simp [joinNL, List.intercalate] at h
  | cons L rest ih =>
    cases rest with
    | nil =>
      right
      exact ⟨L, by simp, by simpa [joinNL_single] using h⟩
    | cons y ys =>
      rw [joinNL_cons L (y :: ys) (by simp)] at h
      rcases List.mem_append.mp h with hL | hr
      · exact Or.inr ⟨L, by simp, hL⟩
      · rcases List.mem_cons.mp hr with rfl | h2
        · exact Or.inl rfl
        · rcases ih h2 with h3 | ⟨l, hl, hcl⟩
          · exact Or.inl h3
          · exact Or.inr ⟨l, by simp [hl], hcl⟩

theorem searchOpt_cons_none {α : Type} (f : Chars → Option α) (c : Char) (cs : Chars)
    (h : f (c :: cs) = none) : searchOpt f (c :: cs) = searchOpt f cs := by
  rw [show searchOpt f (c :: cs) =
    (match f (c :: cs) with | some r => some r | none => searchOpt f cs) from rfl, h]

theorem searchOpt_cons_some {α : Type} (f : Chars → Option α) (c : Char) (cs : Chars)
    (r : α) (h : f (c :: cs) = some r) : searchOpt f (c :: cs) = some r := by
  rw [show searchOpt f (c :: cs) =
    (match f (c :: cs) with | some r => some r | none => searchOpt f cs) from rfl, h]

theorem searchOpt_region_skip {α : Type} (f : Chars → Option α) (x y : Chars)
    (h : ∀ n, n < x.length → f (x.drop n ++ y) = none) :
    searchOpt f (x ++ y) = searchOpt f y := by
  induction x with
  | nil => rfl
  | cons a as ih =>
    have h0 := h 0 (by simp)
    simp only [List.drop_zero, List.cons_append] at h0
    rw [List.cons_append, searchOpt_cons_none f a (as ++ y) h0]
    exact ih (fun n hn => by simpa using h (n + 1) (by simp; omega))

/-- One decoder search steps over the line `L` of the document without
matching, whatever text follows the line. -/
def SkipsLine {α : Type} (f : Chars → Option α) (L : Chars) : Prop :=
  ∀ B : Chars, searchOpt f (L ++ '\n' :: B) = searchOpt f B

/-- A matcher whose success requires the literal `pat` at the head of the
text (the compiled prefix of the decoder's regular expression). -/
def PatScanner {α : Type} (f : Chars → Option α) (pat : Chars) : Prop :=
  pat ≠ [] ∧ ('\n' ∈ pat → False) ∧ ∀ s r, f s = some r → matchLit pat s = true

theorem f_none_of_matchLit_false {α : Type} (f : Chars → Option α) (pat : Chars)
    (hf : PatScanner f pat) (s : Chars) (hm : matchLit pat s = false) : f s = none := by
  cases hfs : f s with
  | none => rfl
  | some r =>
    rw [hf.2.2 s r hfs] at hm
    exact Bool.noConfusion hm

theorem matchLit_nl_false {α : Type} (f : Chars → Option α) (pat : Chars)
    (hf : PatScanner f pat) (B : Chars) : f ('\n' :: B) = none := by
  apply f_none_of_matchLit_false f pat hf
  cases pat with
  | nil => exact absurd rfl hf.1
  | cons p ps =>
    apply matchLit_head_false
    cases hb : (p == '\n') with
    | false => rfl
    | true =>
      rw [beq_iff_eq] at hb
      exact absurd (by simp [hb]) hf.2.1

theorem skipsLine_weak {α : Type} (f : Chars → Option α) (pat L : Chars)
    (hf : PatScanner f pat) (hL : occursIn pat L = false) : SkipsLine f L := by
  intro B
  have hstep : searchOpt f (L ++ '\n' :: B) = searchOpt f ('\n' :: B) := by
    apply searchOpt_region_skip
    intro n hn
    apply f_none_of_matchLit_false f pat hf
    cases hm : matchLit pat (L.drop n ++ '\n' :: B) with
    | false => rfl
    | true =>
      rcases matchLit_sep pat (L.drop n) '\n' B hm with ⟨_, hmt⟩ | hmem
      · have := occursIn_drop pat L n hmt
        rw [hL] at this
        exact Bool.noConfusion this
      · exact absurd hmem hf.2.1
  rw [hstep, searchOpt_cons_none f '\n' B (matchLit_nl_false f pat hf B)]

theorem searchOpt_skip_chunks {α : Type} (f : Chars → Option α) (ls rest : List Chars)
    (hrest : rest ≠ []) (hls : ∀ l ∈ ls, SkipsLine f l) :
    searchOpt f (joinNL (ls ++ rest)) = searchOpt f (joinNL rest) := by
  induction ls with
  | nil => rfl
  | cons L ls' ih =>
    rw [List.cons_append,
      joinNL_cons L (ls' ++ rest) (fun hx => hrest (List.append_eq_nil.mp hx).2),
      hls L (by simp) (joinNL (ls' ++ rest))]
    exact ih (fun l hl => hls l (by simp [hl]))

theorem searchOpt_joinNL_last {α : Type} (f : Chars → Option α) (ls : List Chars)
    (L : Chars) (hskip : ∀ l ∈ ls, SkipsLine f l) (hL : searchOpt f L = none) :
    searchOpt f (joinNL (ls ++ [L])) = none := by
  rw [searchOpt_skip_chunks f ls [L] (by simp) hskip, joinNL_single]
  exact hL

theorem searchOpt_none_of_no_occurs {α : Type} (f : Chars → Option α) (pat : Chars)
    (hf : PatScanner f pat) (s : Chars) (hs : occursIn pat s = false) :
    searchOpt f s = none := by
  induction s with
  | nil =>
    rw [show searchOpt f [] = f [] from rfl]
    apply f_none_of_matchLit_false f pat hf
    cases pat with
    | nil => exact absurd rfl hf.1
    | cons p ps => rfl
  | cons c cs ih =>
    obtain ⟨h1, h2⟩ := occursIn_cons_elim pat c cs hs
    rw [searchOpt_cons_none f c cs (f_none_of_matchLit_false f pat hf _ h1)]
    exact ih h2

theorem titleAt_scanner : PatScanner titleAt (strL "##") := by
  refine ⟨by decide, by decide, ?_⟩
  intro s r h
  rw [titleAt.eq_def] at h
  split at h
  · rfl
  · simp at h

theorem boldAt_scanner : PatScanner boldAt (strL "**") := by
  refine ⟨by decide, by decide, ?_⟩
  intro s r h
  rw [boldAt.eq_def] at h
  split at h
  · rfl
  · simp at h

theorem pTagAt_scanner : PatScanner pTagAt (strL "<p>") := by
  refine ⟨by decide, by decide, ?_⟩
  intro s r h
  rw [pTagAt.eq_def] at h
  split at h
  · rfl
  · simp at h

theorem techAt_scanner : PatScanner techAt (strL "###") := by
  refine ⟨by decide, by decide, ?_⟩
  intro s r h
  rw [techAt.eq_def] at h
  split at h
  · rfl
  · simp at h

theorem featAt_scanner : PatScanner featAt (strL "###") := by
  refine ⟨by decide, by decide, ?_⟩
  intro s r h
  rw [featAt.eq_def] at h
  split at h
  · rfl
  · simp at h

theorem hrefLitAt_scanner (domPat : Chars) (h1 : domPat ≠ [])
    (h2 : '\n' ∈ domPat → False) : PatScanner (hrefLitAt domPat) domPat := by
  refine ⟨h1, h2, ?_⟩
  intro s r h
  unfold hrefLitAt at h
  split at h
  · assumption
  · simp at h

theorem badgeHrefAt_scanner (label : Chars) :
    PatScanner (badgeHrefAt label) (strL "href=\"") := by
  refine ⟨by decide, by decide, ?_⟩
  intro s r h
  unfold badgeHrefAt at h
  split at h
  · assumption
  · simp at h

theorem imgBannerAt_scanner : PatScanner imgBannerAt (strL "<img src=\"") := by
  refine ⟨by decide, by decide, ?_⟩
  intro s r h
  unfold imgBannerAt at h
  split at h
  · assumption
  · simp at h

theorem imgLogoAt_scanner : PatScanner imgLogoAt (strL "<img src=\"") := by
  refine ⟨by decide, by decide, ?_⟩
  intro s r h
  unfold imgLogoAt at h
  split at h
  · assumption
  · simp at h

theorem widthAt_scanner : PatScanner widthAt (strL "width=\"") := by
  refine ⟨by decide, by decide, ?_⟩
  intro s r h
  unfold widthAt at h
  split at h
  · assumption
  · simp at h

theorem ssAt_some_match (s : Chars) (pr : Chars × Chars) (rest : Chars)
    (h : ssAt s = some (pr, rest)) : matchLit (strL "images/") s = true := by
  unfold ssAt at h
  split at h
  · assumption
  · simp at h

theorem ssMatches_nil_of_no_occurs (s : Chars) (h : occursIn (strL "images/") s = false) :
    ssMatches s = [] := by
  induction s with
  | nil => rfl
  | cons c cs ih =>
    rw [ssMatches_cons]
    obtain ⟨h1, h2⟩ := occursIn_cons_elim _ c cs h
    cases hd : ssAt (c :: cs) with
    | none => exact ih h2
    | some pr =>
      obtain ⟨pr, rest⟩ := pr
      rw [ssAt_some_match (c :: cs) pr rest hd] at h1
      exact Bool.noConfusion h1

theorem tickSpans_step_ne (c : Char) (cs : Chars) (h : ¬c = tickC) :
    tickSpans (c :: cs) = tickSpans cs := by
  rw [tickSpans_cons, if_neg h]

theorem tickSpans_nil_of_no_tick (s : Chars) (h : ∀ c ∈ s, c ≠ tickC) :
    tickSpans s = [] := by
  induction s with
  | nil => rfl
  | cons c cs ih =>
    rw [tickSpans_step_ne c cs (h c (by simp))]
    exact ih (fun d hd => h d (by simp [hd]))

theorem tickSpans_append_skip (A b : Chars) (h : ∀ c ∈ A, c ≠ tickC) :
    tickSpans (A ++ b) = tickSpans b := by
  induction A with
  | nil => rfl
  | cons a as ih =>
    rw [List.cons_append, tickSpans_step_ne a (as ++ b) (h a (by simp))]
    exact ih (fun d hd => h d (by simp [hd]))

theorem catBadges_cons_eq (c : Chars) (cs : List Chars) :
    catBadges (c :: cs) =
      tickC :: (c ++ tickC :: (if cs.isEmpty then [] else ' ' :: catBadges cs)) := by
  unfold catBadges
  cases cs with
  | nil => simp [intercalate_single]
  | cons d ds => simp [intercalate_cons2, strL, List.append_assoc]

theorem occursIn_nil_false (pat : Chars) (h : pat ≠ []) : occursIn pat [] = false := by
  cases pat with
  | nil => exact absurd rfl h
  | cons p ps => rfl

theorem tickSpans_catBadges (cats : List Chars) (rest : Chars)
    (hcats : ∀ c ∈ cats, (∀ d ∈ c, d ≠ tickC) ∧ c ≠ [])
    (hrest : ∀ d ∈ rest, d ≠ tickC) :
    tickSpans (catBadges cats ++ rest) = cats := by
  induction cats with
  | nil =>
    rw [show catBadges [] = [] from rfl, List.nil_append]
    exact tickSpans_nil_of_no_tick rest hrest
  | cons c cs ih =>
    obtain ⟨hcf, hcne⟩ := hcats c (by simp)
    rw [catBadges_cons_eq, List.cons_append, tickSpans_cons, if_pos rfl]
    have hsh : (c ++ tickC :: (if cs.isEmpty then [] else ' ' :: catBadges cs)) ++ rest =
        c ++ tickC :: ((if cs.isEmpty then [] else ' ' :: catBadges cs) ++ rest) := by
      simp [List.append_assoc]
    rw [hsh]
    have hdw : (c ++ tickC ::
          ((if cs.isEmpty then [] else ' ' :: catBadges cs) ++ rest)).dropWhile
        (fun x => x ≠ tickC) =
        tickC :: ((if cs.isEmpty then [] else ' ' :: catBadges cs) ++ rest) :=
      dropWhile_append_stop _ c tickC _ (fun d hd => by simp [hcf d hd]) (by simp)
    have htw : (c ++ tickC ::
          ((if cs.isEmpty then [] else ' ' :: catBadges cs) ++ rest)).takeWhile
        (fun x => x ≠ tickC) = c :=
      takeWhile_append_stop _ c tickC _ (fun d hd => by simp [hcf d hd]) (by simp)
    rw [hdw]
    dsimp only
    rw [htw]
    rw [if_neg (by simpa using hcne)]
    congr 1
    cases cs with
    | nil =>
      simp only [List.isEmpty_nil, if_true, List.nil_append]
      exact tickSpans_nil_of_no_tick rest hrest
    | cons d ds =>
      rw [if_neg (by simp), List.cons_append]
      rw [tickSpans_step_ne ' ' _ (by decide)]
      exact ih (fun x hx => hcats x (by simp [hx]))

theorem mem_catBadges (cats : List Chars) (x : Char) (h : x ∈ catBadges cats) :
    x = tickC ∨ x = ' ' ∨ ∃ c ∈ cats, x ∈ c := by
  induction cats with
  | nil => simp [catBadges, List.intercalate] at h
  | cons c cs ih =>
    rw [catBadges_cons_eq] at h
    rcases List.mem_cons.mp h with rfl | h2
    · exact Or.inl rfl
    · rcases List.mem_append.mp h2 with hc | h3
      · exact Or.inr (Or.inr ⟨c, by simp, hc⟩)
      · rcases List.mem_cons.mp h3 with rfl | h4
        · exact Or.inl rfl
        · split at h4
          · simp at h4
          · rcases List.mem_cons.mp h4 with rfl | h5
            · exact Or.inr (Or.inl rfl)
            · rcases ih h5 with h6 | h6 | ⟨cc, hcc, hx⟩
              · exact Or.inl h6
              · exact Or.inr (Or.inl h6)
              · exact Or.inr (Or.inr ⟨cc, by simp [hcc], hx⟩)

theorem occursIn_catBadges_false (pat : Chars) (cats : List Chars)
    (htick : tickC ∈ pat → False) (hsp : ' ' ∈ pat → False) (hne : pat ≠ [])
    (hcats : ∀ c ∈ cats, occursIn pat c = false) :
    occursIn pat (catBadges cats) = false := by
  induction cats with
  | nil =>
    rw [show catBadges [] = [] from rfl]
    exact occursIn_nil_false pat hne
  | cons c cs ih =>
    rw [catBadges_cons_eq]
    have h1 := occursIn_sep pat [] (c ++ tickC ::
      (if cs.isEmpty then [] else ' ' :: catBadges cs)) tickC htick hne
    simp only [List.nil_append] at h1
    rw [h1, occursIn_nil_false pat hne, Bool.false_or,
      occursIn_sep pat c (if cs.isEmpty then [] else ' ' :: catBadges cs) tickC htick hne,
      hcats c (by simp), Bool.false_or]
    cases cs with
    | nil =>
      simp only [List.isEmpty_nil, if_true]
      exact occursIn_nil_false pat hne
    | cons d ds =>
      rw [if_neg (by simp)]
      have h2 := occursIn_sep pat [] (catBadges (d :: ds)) ' ' hsp hne
      simp only [List.nil_append] at h2
      rw [h2, occursIn_nil_false pat hne, Bool.false_or]
      exact ih (fun x hx => hcats x (by simp [hx]))

/-! ### Benign-input predicates for the amended round-trip claim (C2):
free-text fields avoid the markup characters of the format, URLs avoid the
delimiter characters of the emitted HTML, links are in the canonical form
the decoder's patterns recognise, and the fields outside the claim's list
hold their constructor defaults. -/

def plainChar (c : Char) : Bool :=
  !(c == '#' || c == '*' || c == '<' || c == '>' || c == '"' || c == ':' || c == '/' ||
    c == tickC || c == '\n' || c == '\t' || c == '\r' ||
    c == Char.ofNat 11 || c == Char.ofNat 12)

def plainOk (s : Chars) : Bool :=
  s.all plainChar && !(occursIn (strL "dashed") s)

def stripFix (s : Chars) : Bool := pyStrip s == s

def fieldOk (s : Chars) : Bool := s.isEmpty || (plainOk s && stripFix s)

def headNotWs (s : Chars) : Bool := !(pyIsSpace (s.headD 'x'))

def itemOk (s : Chars) : Bool := !s.isEmpty && plainOk s && headNotWs s

def urlChar (c : Char) : Bool :=
  !(c == '"' || c == '<' || c == '>' || c == tickC || c == '*' || c == '#' || c == ' ' ||
    c == '\n' || c == '\t' || c == '\r' || c == Char.ofNat 11 || c == Char.ofNat 12)

def urlOk (s : Chars) : Bool :=
  !s.isEmpty && s.all urlChar && !(occursIn (strL "images/") s) &&
    !(occursIn (strL "dashed") s)

def playDom : Chars := strL "https://play.google.com"

def appsDom : Chars := strL "https://apps.apple.com"

def gitDom : Chars := strL "https://github.com"

def canonUrlOk (dom : Chars) (others : List Chars) (s : Chars) : Bool :=
  matchLit dom s && decide (dom.length < s.length) && urlOk s &&
    others.all (fun d => !(occursIn d s))

def freeUrlOk (s : Chars) : Bool :=
  urlOk s && !(occursIn playDom s) && !(occursIn appsDom s) && !(occursIn gitDom s)

def linkOkC (dom : Chars) (others : List Chars) (v : Chars) : Bool :=
  v.isEmpty || canonUrlOk dom others v

def linkOkF (v : Chars) : Bool := v.isEmpty || freeUrlOk v

def linksOk (links : LinkMap) : Bool :=
  links.all (fun kv => linkKeys.contains kv.1) &&
  linkOkC playDom [appsDom, gitDom] (dictGet links (strL "playStore")) &&
  linkOkC appsDom [playDom, gitDom] (dictGet links (strL "appStore")) &&
  linkOkC gitDom [playDom, appsDom] (dictGet links (strL "github")) &&
  linkOkF (dictGet links (strL "website")) &&
  linkOkF (dictGet links (strL "apk"))

def borderOk (p : Project) : Bool :=
  (p.show_border &&
    (p.border_style == strL "rounded" || p.border_style == strL "square" ||
      p.border_style == strL "dashed")) ||
  (!p.show_border && p.border_style == strL "rounded")

/-- Benign record: only the claim's listed fields are set (plain text,
vocabulary categories, canonical links, recognised border, any layout and
size), the image fields are empty and the other fields hold the
constructor defaults of `Project`. -/
def benign (p : Project) : Bool :=
  !p.title.isEmpty && plainOk p.title && stripFix p.title &&
  p.categories.all (fun c => known_categories.contains c) &&
  fieldOk p.short_description && fieldOk p.long_description &&
  p.technologies.all (fun t => !t.isEmpty && plainOk t) &&
  p.features.all itemOk &&
  linksOk p.links && borderOk p &&
  p.id.isEmpty && p.banner_image.isEmpty && p.banner_local_path.isEmpty &&
  p.logo_url.isEmpty && p.show_logo &&
  (p.theme_color == strL "#000000") &&
  p.screenshots.isEmpty && p.screenshots_local_paths.isEmpty

theorem benign_parts (p : Project) (hb : benign p = true) :
    p.title ≠ [] ∧ plainOk p.title = true ∧ pyStrip p.title = p.title ∧
    (∀ c ∈ p.categories, c ∈ known_categories) ∧
    fieldOk p.short_description = true ∧ fieldOk p.long_description = true ∧
    (∀ t ∈ p.technologies, t ≠ [] ∧ plainOk t = true) ∧
    (∀ f ∈ p.features, itemOk f = true) ∧
    linksOk p.links = true ∧ borderOk p = true ∧
    p.id = [] ∧ p.banner_image = [] ∧ p.logo_url = [] ∧ p.show_logo = true ∧
    p.theme_color = strL "#000000" ∧ p.screenshots = [] := by
  unfold benign at hb
  simp only [Bool.and_eq_true] at hb
  obtain ⟨⟨⟨⟨⟨⟨⟨⟨⟨⟨⟨⟨⟨⟨⟨⟨⟨hTne, hTpl⟩, hTst⟩, hCat⟩, hSh⟩, hLo⟩, hTe⟩, hFe⟩, hLk⟩,
    hBo⟩, hId⟩, hBan⟩, hBanL⟩, hLog⟩, hSL⟩, hTh⟩, hSs⟩, hSsl⟩ := hb
  refine ⟨?_, hTpl, ?_, ?_, hSh, hLo, ?_, ?_, hLk, hBo, ?_, ?_, ?_, hSL, ?_, ?_⟩
  · simpa using hTne
  · simpa [stripFix] using hTst
  · intro c hc
    have := List.all_eq_true.mp hCat c hc
    simpa using this
  · intro t ht
    have := List.all_eq_true.mp hTe t ht
    simp only [Bool.and_eq_true] at this
    exact ⟨by simpa using this.1, this.2⟩
  · intro f hf
    exact List.all_eq_true.mp hFe f hf
  · simpa using hId
  · simpa using hBan
  · simpa using hLog
  · simpa using hTh
  · simpa using hSs

theorem borderOk_cases (p : Project) (h : borderOk p = true) :
    (p.show_border = true ∧ (p.border_style = strL "rounded" ∨
      p.border_style = strL "square" ∨ p.border_style = strL "dashed")) ∨
    (p.show_border = false ∧ p.border_style = strL "rounded") := by
  unfold borderOk at h
  rw [Bool.or_eq_true] at h
  rcases h with h | h
  · simp only [Bool.and_eq_true, Bool.or_eq_true, beq_iff_eq] at h
    exact Or.inl ⟨h.1, by tauto⟩
  · simp only [Bool.and_eq_true, Bool.not_eq_true', beq_iff_eq] at h
    exact Or.inr ⟨h.1, h.2⟩

/-- Shield-badge image source emitted for the Play Store link. -/
def shPlay : Chars :=
  strL "https://img.shields.io/badge/Play_Store-414141?style=for-the-badge&logo=google-play&logoColor=white"

/-- Shield-badge image source emitted for the App Store link. -/
def shApps : Chars :=
  strL "https://img.shields.io/badge/App_Store-0D96F6?style=for-the-badge&logo=app-store&logoColor=white"

/-- Shield-badge image source emitted for the website link with the default
theme color. -/
def shWeb : Chars :=
  strL "https://img.shields.io/badge/Website-000000?style=for-the-badge&logo=safari&logoColor=white"

/-- Shield-badge image source emitted for the GitHub link. -/
def shGit : Chars :=
  strL "https://img.shields.io/badge/GitHub-181717?style=for-the-badge&logo=github&logoColor=white"

/-- Shield-badge image source emitted for the APK link. -/
def shApk : Chars :=
  strL "https://img.shields.io/badge/APK-3DDC84?style=for-the-badge&logo=android&logoColor=white"

/-- Normal form of one link badge: anchor around a shield image. -/
def badgeB (u sh : Chars) : Chars :=
  strL "<a href=\"" ++ u ++ (strL "\"><img src=\"" ++ (sh ++ strL "\"></a>"))

/-- The border-wrapper opening line for a given border style. -/
def styleLine (bs : Chars) : Chars := strL "<div style=\"" ++ borderCssOf true bs ++ strL "\">"

/-- Lines of the generated project block for a benign record, in document
order (the value of `generate_project_lines` once the default-valued
fields are folded in). -/
def docLines (p : Project) : List Chars :=
  (if p.show_border then [styleLine p.border_style, []] else [])
  ++ [strL "<div align=\"center\">", [], strL "## " ++ p.title, []]
  ++ (if !p.categories.isEmpty then [catBadges p.categories, []] else [])
  ++ (if !p.short_description.isEmpty then
        [strL "**" ++ p.short_description ++ strL "**", []] else [])
  ++ (if !p.long_description.isEmpty then
        [strL "<p>" ++ p.long_description ++ strL "</p>", []] else [])
  ++ linkLines p.links (strL "000000")
  ++ techLines p.technologies
  ++ featLines p.features
  ++ [strL "</div>", []]
  ++ (if p.show_border then [strL "</div>"] else [])

theorem generate_lines_benign (fs : Chars → Bool) (p : Project) (hb : benign p = true) :
    generate_project_lines fs p = docLines p := by
  obtain ⟨hTne, _, _, _, _, _, _, _, _, hBo, hId, hBan, hLog, hSL, hTh, hSs⟩ :=
    benign_parts p hb
  have hTe' : p.title.isEmpty = false := by
    rw [Bool.eq_false_iff]
    simpa [List.isEmpty_iff] using hTne
  have hssnil : ∀ a b c, ssLines a b c [] = [] := fun a b c => rfl
  have hcontent : generate_project_content fs p =
      [strL "<div align=\"center\">", [], strL "## " ++ p.title, []]
      ++ (if !p.categories.isEmpty then [catBadges p.categories, []] else [])
      ++ (if !p.short_description.isEmpty then
            [strL "**" ++ p.short_description ++ strL "**", []] else [])
      ++ (if !p.long_description.isEmpty then
            [strL "<p>" ++ p.long_description ++ strL "</p>", []] else [])
      ++ linkLines p.links (strL "000000")
      ++ techLines p.technologies
      ++ featLines p.features
      ++ [strL "</div>", []] := by
    unfold generate_project_content
    rw [hBan, hLog, hSs, hTh, hSL, hssnil]
    simp only [List.isEmpty_nil, Bool.not_true, Bool.and_false, Bool.false_eq_true, if_false,
      hTe', List.append_nil, List.nil_append]
    rfl
  unfold generate_project_lines docLines
  rw [hcontent]
  rcases borderOk_cases p hBo with ⟨hsb, hsty⟩ | ⟨hsb, hsty⟩
  · rw [hsb]
    have hbne : p.border_style.isEmpty = false := by
      rcases hsty with h | h | h <;> rw [h] <;> rfl
    rw [hbne]
    have hcssne : (borderCssOf true p.border_style).isEmpty = false := by
      rcases hsty with h | h | h <;> rw [h] <;> rfl
    simp only [Bool.false_eq_true, if_false, hcssne, Bool.not_false, Bool.and_true, if_true]
    unfold styleLine
    simp [List.append_assoc]
  · rw [hsb]
    simp

theorem linkBadges_mem_benign (links : LinkMap) (b : Chars)
    (hb : b ∈ linkBadges links (strL "000000")) :
    ∃ u sh, b = badgeB u sh ∧ u.isEmpty = false ∧
      ((u = dictGet links (strL "playStore") ∧ sh = shPlay) ∨
       (u = dictGet links (strL "appStore") ∧ sh = shApps) ∨
       (u = dictGet links (strL "website") ∧ sh = shWeb) ∨
       (u = dictGet links (strL "github") ∧ sh = shGit) ∨
       (u = dictGet links (strL "apk") ∧ sh = shApk)) := by
  unfold linkBadges at hb
  simp only [List.mem_append] at hb
  rcases hb with ((((hb | hb) | hb) | hb) | hb)
  · split at hb
    case isTrue hcond =>
      simp only [List.mem_singleton] at hb
      exact ⟨dictGet links (strL "playStore"), shPlay, by rw [hb]; rfl,
        by simpa using hcond, Or.inl ⟨rfl, rfl⟩⟩
    case isFalse => simp at hb
  · split at hb
    case isTrue hcond =>
      simp only [List.mem_singleton] at hb
      exact ⟨dictGet links (strL "appStore"), shApps, by rw [hb]; rfl,
        by simpa using hcond, Or.inr (Or.inl ⟨rfl, rfl⟩)⟩
    case isFalse => simp at hb
  · split at hb
    case isTrue hcond =>
      simp only [List.mem_singleton] at hb
      refine ⟨dictGet links (strL "website"), shWeb, ?_,
        by simpa using hcond, Or.inr (Or.inr (Or.inl ⟨rfl, rfl⟩))⟩
      rw [hb]
      simp only [badgeB, shWeb, List.append_assoc]
      rfl
    case isFalse => simp at hb
  · split at hb
    case isTrue hcond =>
      simp only [List.mem_singleton] at hb
      exact ⟨dictGet links (strL "github"), shGit, by rw [hb]; rfl,
        by simpa using hcond, Or.inr (Or.inr (Or.inr (Or.inl ⟨rfl, rfl⟩)))⟩
    case isFalse => simp at hb
  · split at hb
    case isTrue hcond =>
      simp only [List.mem_singleton] at hb
      exact ⟨dictGet links (strL "apk"), shApk, by rw [hb]; rfl,
        by simpa using hcond, Or.inr (Or.inr (Or.inr (Or.inr ⟨rfl, rfl⟩)))⟩
    case isFalse => simp at hb

theorem linkLines_mem (links : LinkMap) (tc : Chars) (l : Chars)
    (hl : l ∈ linkLines links tc) :
    l = strL "<p>" ∨ l = strL "</p>" ∨ l = [] ∨
      ∃ b ∈ linkBadges links tc, l = strL "  " ++ b := by
  unfold linkLines at hl
  dsimp only at hl
  split at hl
  · simp at hl
  · rcases List.mem_append.mp hl with h12 | h3
    · rcases List.mem_append.mp h12 with h1 | h2
      · rcases List.mem_cons.mp h1 with rfl | h1
        · exact Or.inl rfl
        · simp at h1
      · rcases List.mem_map.mp h2 with ⟨b, hbm, rfl⟩
        exact Or.inr (Or.inr (Or.inr ⟨b, hbm, rfl⟩))
    · rcases List.mem_cons.mp h3 with rfl | h3
      · exact Or.inr (Or.inl rfl)
      · rcases List.mem_cons.mp h3 with rfl | h3
        · exact Or.inr (Or.inr (Or.inl rfl))
        · simp at h3

theorem techLines_mem (techs : List Chars) (l : Chars) (hl : l ∈ techLines techs) :
    l = strL "### Tech Stack" ∨ l = [] ∨ l = strL "<p>" ∨ l = strL "</p>" ∨
      ∃ t ∈ techs, l = strL "  <code>" ++ t ++ strL "</code>" := by
  unfold techLines at hl
  split at hl
  · simp at hl
  · rcases List.mem_append.mp hl with h12 | h3
    · rcases List.mem_append.mp h12 with h1 | h2
      · rcases List.mem_cons.mp h1 with rfl | h1
        · exact Or.inl rfl
        rcases List.mem_cons.mp h1 with rfl | h1
        · exact Or.inr (Or.inl rfl)
        rcases List.mem_cons.mp h1 with rfl | h1
        · exact Or.inr (Or.inr (Or.inl rfl))
        · simp at h1
      · rcases List.mem_map.mp h2 with ⟨t, htm, rfl⟩
        exact Or.inr (Or.inr (Or.inr (Or.inr ⟨t, htm, rfl⟩)))
    · rcases List.mem_cons.mp h3 with rfl | h3
      · exact Or.inr (Or.inr (Or.inr (Or.inl rfl)))
      · rcases List.mem_cons.mp h3 with rfl | h3
        · exact Or.inr (Or.inl rfl)
        · simp at h3

theorem featLines_mem (feats : List Chars) (l : Chars) (hl : l ∈ featLines feats) :
    l = strL "### Features" ∨ l = [] ∨ ∃ f ∈ feats, l = strL "- " ++ f := by
  unfold featLines at hl
  split at hl
  · simp at hl
  · rcases List.mem_append.mp hl with h12 | h3
    · rcases List.mem_append.mp h12 with h1 | h2
      · rcases List.mem_cons.mp h1 with rfl | h1
        · exact Or.inl rfl
        rcases List.mem_cons.mp h1 with rfl | h1
        · exact Or.inr (Or.inl rfl)
        · simp at h1
      · rcases List.mem_map.mp h2 with ⟨f, hfm, rfl⟩
        exact Or.inr (Or.inr ⟨f, hfm, rfl⟩)
    · rcases List.mem_cons.mp h3 with rfl | h3
      · exact Or.inr (Or.inl rfl)
      · simp at h3

theorem plain_not_mem (s : Chars) (hs : plainOk s = true) (c : Char)
    (hc : plainChar c = false) : c ∈ s → False := by
  intro hm
  unfold plainOk at hs
  simp only [Bool.and_eq_true] at hs
  have := List.all_eq_true.mp hs.1 c hm
  rw [hc] at this
  exact Bool.noConfusion this

theorem url_not_mem (s : Chars) (hs : urlOk s = true) (c : Char)
    (hc : urlChar c = false) : c ∈ s → False := by
  intro hm
  unfold urlOk at hs
  simp only [Bool.and_eq_true] at hs
  have := List.all_eq_true.mp hs.1.1.2 c hm
  rw [hc] at this
  exact Bool.noConfusion this

theorem occursIn_false_lfl (pat lit1 f lit2 : Chars) (c : Char) (hc : c ∈ pat)
    (h1 : c ∈ lit1 → False) (h2 : c ∈ lit2 → False) (hf : c ∈ f → False) :
    occursIn pat (lit1 ++ f ++ lit2) = false :=
  occursIn_char_absence pat _ c hc (fun hx => by
    rcases List.mem_append.mp hx with hx | hx
    · rcases List.mem_append.mp hx with hx | hx
      · exact h1 hx
      · exact hf hx
    · exact h2 hx)

theorem occursIn_false_lf (pat lit f : Chars) (c : Char) (hc : c ∈ pat)
    (h1 : c ∈ lit → False) (hf : c ∈ f → False) :
    occursIn pat (lit ++ f) = false :=
  occursIn_char_absence pat _ c hc (fun hx => by
    rcases List.mem_append.mp hx with hx | hx
    · exact h1 hx
    · exact hf hx)

theorem occursIn_badge (pat : Chars) (hq : '"' ∈ pat → False) (hne : pat ≠ [])
    (u sh : Chars) :
    occursIn pat (strL "  " ++ badgeB u sh) =
      ((((occursIn pat (strL "  <a href=") || occursIn pat u) ||
        occursIn pat (strL "><img src=")) || occursIn pat sh) ||
        occursIn pat (strL "></a>")) := by
  have hsh : strL "  " ++ badgeB u sh =
      strL "  <a href=" ++ '"' ::
        (u ++ '"' :: (strL "><img src=" ++ '"' :: (sh ++ '"' :: strL "></a>"))) := by
    simp only [badgeB, List.append_assoc]
    rfl
  rw [hsh]
  rw [occursIn_sep pat _ _ '"' hq hne]
  rw [occursIn_sep pat u _ '"' hq hne]
  rw [occursIn_sep pat _ _ '"' hq hne]
  rw [occursIn_sep pat sh _ '"' hq hne]
  simp [Bool.or_assoc]

theorem scanToLabel_sep_false (label x y : Chars) (hgt : '>' ∈ label → False)
    (hne : label ≠ []) (hx : occursIn label x = false) :
    scanToLabel label (x ++ '>' :: y) = false := by
  induction x with
  | nil =>
    rw [List.nil_append]
    cases label with
    | nil => exact absurd rfl hne
    | cons l ls =>
      have hl : l ≠ '>' := fun h => hgt (by simp [h])
      simp [scanToLabel, matchLit, hl]
  | cons a as ih =>
    obtain ⟨h1, h2⟩ := occursIn_cons_elim label a as hx
    rw [List.cons_append]
    have hm : matchLit label (a :: (as ++ '>' :: y)) = false := by
      cases hmm : matchLit label (a :: (as ++ '>' :: y)) with
      | false => rfl
      | true =>
        have hmm' : matchLit label ((a :: as) ++ '>' :: y) = true := by simpa using hmm
        rcases matchLit_sep label (a :: as) '>' y hmm' with ⟨_, hmt⟩ | hmem
        · rw [hmt] at h1
          exact Bool.noConfusion h1
        · exact absurd hmem hgt
    by_cases ha : a = '>'
    · subst ha
      simp [scanToLabel, hm]
    · simp only [scanToLabel, hm, Bool.false_or]
      rw [show (decide (a ≠ '>')) = true by simp [ha], Bool.true_and]
      exact ih h2

theorem region_none_quote {α : Type} (f : Chars → Option α) (pfx : Chars)
    (hf : PatScanner f (pfx ++ ['"'])) (hpq : '"' ∈ pfx → False)
    (u B : Chars) (hu : '"' ∈ u → False) (hocc : occursIn pfx u = false) :
    ∀ n, n < u.length → f (u.drop n ++ '"' :: B) = none := by
  intro n hn
  cases hm : matchLit (pfx ++ ['"']) (u.drop n ++ '"' :: B) with
  | false => exact f_none_of_matchLit_false f _ hf _ hm
  | true =>
    have hal := matchLit_quote_align pfx [] (u.drop n) B hpq
      (fun hx => hu (List.drop_subset n u hx)) (by simpa using hm)
    have hml : matchLit pfx (u.drop n) = true := by
      rw [hal.1]
      have := matchLit_self_append pfx []
      simpa using this
    have := occursIn_drop pfx u n hml
    rw [hocc] at this
    exact Bool.noConfusion this

theorem region_none_head {α : Type} (f : Chars → Option α) (pat : Chars) (p0 : Char)
    (ps : Chars) (hp : pat = p0 :: ps) (hf : PatScanner f pat)
    (u y : Chars) (hu : p0 ∈ u → False) :
    ∀ n, n < u.length → f (u.drop n ++ y) = none := by
  intro n hn
  obtain ⟨c, t, hct, hc⟩ := drop_head_mem u n hn
  apply f_none_of_matchLit_false f pat hf
  rw [hct, List.cons_append, hp]
  apply matchLit_head_false
  cases hb : (p0 == c) with
  | false => rfl
  | true =>
    rw [beq_iff_eq] at hb
    rw [hb] at hu
    exact absurd hc hu

theorem skipsLine_nil {α : Type} (f : Chars → Option α) (pat : Chars)
    (hf : PatScanner f pat) : SkipsLine f ([] : Chars) :=
  skipsLine_weak f pat [] hf (occursIn_nil_false pat hf.1)

theorem skips_style_chunk {α : Type} (f : Chars → Option α) (pat : Chars)
    (hf : PatScanner f pat) (p : Project) (hBo : borderOk p = true)
    (h1 : occursIn pat (styleLine (strL "rounded")) = false)
    (h2 : occursIn pat (styleLine (strL "square")) = false)
    (h3 : occursIn pat (styleLine (strL "dashed")) = false) :
    ∀ l ∈ (if p.show_border then [styleLine p.border_style, []] else []), SkipsLine f l := by
  intro l hl
  split at hl
  case isTrue hcond =>
    rcases List.mem_cons.mp hl with rfl | hl
    · rcases borderOk_cases p hBo with ⟨_, hsty⟩ | ⟨hsb, _⟩
      · rcases hsty with h | h | h <;> rw [h]
        · exact skipsLine_weak f pat _ hf h1
        · exact skipsLine_weak f pat _ hf h2
        · exact skipsLine_weak f pat _ hf h3
      · rw [hcond] at hsb
        exact Bool.noConfusion hsb
    · rcases List.mem_singleton.mp (by simpa using hl) with rfl
      exact skipsLine_nil f pat hf
  case isFalse => simp at hl

theorem skips_head_chunk {α : Type} (f : Chars → Option α) (pat : Chars)
    (hf : PatScanner f pat) (t : Chars)
    (hcdiv : occursIn pat (strL "<div align=\"center\">") = false)
    (httl : occursIn pat (strL "## " ++ t) = false) :
    ∀ l ∈ [strL "<div align=\"center\">", [], strL "## " ++ t, []], SkipsLine f l := by
  intro l hl
  rcases List.mem_cons.mp hl with rfl | hl
  · exact skipsLine_weak f pat _ hf hcdiv
  rcases List.mem_cons.mp hl with rfl | hl
  · exact skipsLine_nil f pat hf
  rcases List.mem_cons.mp hl with rfl | hl
  · exact skipsLine_weak f pat _ hf httl
  rcases List.mem_cons.mp hl with rfl | hl
  · exact skipsLine_nil f pat hf
  · simp at hl

theorem skips_opt_chunk {α : Type} (f : Chars → Option α) (pat : Chars)
    (hf : PatScanner f pat) (cond : Bool) (L : Chars)
    (hL : occursIn pat L = false) :
    ∀ l ∈ (if cond then [L, []] else ([] : List Chars)), SkipsLine f l := by
  intro l hl
  split at hl
  · rcases List.mem_cons.mp hl with rfl | hl
    · exact skipsLine_weak f pat _ hf hL
    · rcases List.mem_singleton.mp (by simpa using hl) with rfl
      exact skipsLine_nil f pat hf
  · simp at hl

theorem skips_links_chunk {α : Type} (f : Chars → Option α) (pat : Chars)
    (hf : PatScanner f pat) (links : LinkMap)
    (hpopen : occursIn pat (strL "<p>") = false)
    (hpclose : occursIn pat (strL "</p>") = false)
    (hbadge : ∀ b ∈ linkBadges links (strL "000000"),
      occursIn pat (strL "  " ++ b) = false) :
    ∀ l ∈ linkLines links (strL "000000"), SkipsLine f l := by
  intro l hl
  rcases linkLines_mem links (strL "000000") l hl with rfl | rfl | rfl | ⟨b, hbm, rfl⟩
  · exact skipsLine_weak f pat _ hf hpopen
  · exact skipsLine_weak f pat _ hf hpclose
  · exact skipsLine_nil f pat hf
  · exact skipsLine_weak f pat _ hf (hbadge b hbm)

theorem skips_tech_chunk {α : Type} (f : Chars → Option α) (pat : Chars)
    (hf : PatScanner f pat) (techs : List Chars)
    (hhead : occursIn pat (strL "### Tech Stack") = false)
    (hpopen : occursIn pat (strL "<p>") = false)
    (hpclose : occursIn pat (strL "</p>") = false)
    (hcode : ∀ t ∈ techs, occursIn pat (strL "  <code>" ++ t ++ strL "</code>") = false) :
    ∀ l ∈ techLines techs, SkipsLine f l := by
  intro l hl
  rcases techLines_mem techs l hl with rfl | rfl | rfl | rfl | ⟨t, htm, rfl⟩
  · exact skipsLine_weak f pat _ hf hhead
  · exact skipsLine_nil f pat hf
  · exact skipsLine_weak f pat _ hf hpopen
  · exact skipsLine_weak f pat _ hf hpclose
  · exact skipsLine_weak f pat _ hf (hcode t htm)

theorem skips_feat_chunk {α : Type} (f : Chars → Option α) (pat : Chars)
    (hf : PatScanner f pat) (feats : List Chars)
    (hhead : occursIn pat (strL "### Features") = false)
    (hdash : ∀ x ∈ feats, occursIn pat (strL "- " ++ x) = false) :
    ∀ l ∈ featLines feats, SkipsLine f l := by
  intro l hl
  rcases featLines_mem feats l hl with rfl | rfl | ⟨x, hxm, rfl⟩
  · exact skipsLine_weak f pat _ hf hhead
  · exact skipsLine_nil f pat hf
  · exact skipsLine_weak f pat _ hf (hdash x hxm)

theorem skips_tail_chunk {α : Type} (f : Chars → Option α) (pat : Chars)
    (hf : PatScanner f pat)
    (hediv : occursIn pat (strL "</div>") = false) :
    ∀ l ∈ [strL "</div>", []], SkipsLine f l := by
  intro l hl
  rcases List.mem_cons.mp hl with rfl | hl
  · exact skipsLine_weak f pat _ hf hediv
  · rcases List.mem_singleton.mp (by simpa using hl) with rfl
    exact skipsLine_nil f pat hf

theorem dropWhile_length_eq (p : Char → Bool) (l : Chars)
    (h : (l.dropWhile p).length = l.length) : l.dropWhile p = l := by
  induction l with
  | nil => rfl
  | cons a as ih =>
    by_cases ha : p a
    · rw [List.dropWhile_cons] at h
      simp only [ha, if_true] at h
      have := dropWhile_length_le p as
      simp at h
      omega
    · simp [List.dropWhile_cons, ha]

theorem head_not_of_stripFix (s : Chars) (hne : s ≠ []) (hst : pyStrip s = s) :
    ∃ c t, s = c :: t ∧ pyIsSpace c = false := by
  have hlen : (s.dropWhile pyIsSpace).length = s.length := by
    have h1 : (pyStrip s).length ≤ (s.dropWhile pyIsSpace).length := by
      unfold pyStrip
      rw [List.length_reverse]
      calc ((s.dropWhile pyIsSpace).reverse.dropWhile pyIsSpace).length
          ≤ (s.dropWhile pyIsSpace).reverse.length := dropWhile_length_le _ _
        _ = (s.dropWhile pyIsSpace).length := List.length_reverse _
    have h2 := dropWhile_length_le pyIsSpace s
    rw [hst] at h1
    omega
  have hdw := dropWhile_length_eq pyIsSpace s hlen
  cases s with
  | nil => exact absurd rfl hne
  | cons c t =>
    refine ⟨c, t, rfl, ?_⟩
    by_cases hc : pyIsSpace c
    · rw [List.dropWhile_cons] at hdw
      simp only [hc, if_true] at hdw
      have := dropWhile_length_le pyIsSpace t
      rw [hdw] at this
      simp at this
    · simpa using hc

theorem wsDotCapR_site (t R : Chars) (c0 : Char) (t' : Chars) (ht : t = c0 :: t')
    (hc0 : pyIsSpace c0 = false) (hnl : ∀ d ∈ t, d ≠ '\n') :
    wsDotCapR (' ' :: (t ++ '\n' :: R)) = some (t, '\n' :: R) := by
  unfold wsDotCapR
  have htw : (' ' :: (t ++ '\n' :: R)).takeWhile pyIsSpace = [' '] := by
    rw [List.takeWhile_cons]
    simp only [show pyIsSpace ' ' = true from rfl, if_true]
    rw [ht, List.cons_append, List.takeWhile_cons]
    simp [hc0]
  have hdw : (' ' :: (t ++ '\n' :: R)).dropWhile pyIsSpace = t ++ '\n' :: R := by
    rw [List.dropWhile_cons]
    simp only [show pyIsSpace ' ' = true from rfl, if_true]
    conv_lhs => rw [ht]
    rw [List.cons_append, List.dropWhile_cons]
    rw [if_neg (by simp [hc0])]
    rw [ht, List.cons_append]
  rw [htw, hdw]
  rw [if_neg (by simp)]
  rw [if_neg (by rw [ht]; simp)]
  have hcap : (t ++ '\n' :: R).takeWhile (fun c => c ≠ '\n') = t :=
    takeWhile_append_stop _ t '\n' R (fun d hd => by simp [hnl d hd]) (by simp)
  have hrest : (t ++ '\n' :: R).dropWhile (fun c => c ≠ '\n') = '\n' :: R :=
    dropWhile_append_stop _ t '\n' R (fun d hd => by simp [hnl d hd]) (by simp)
  rw [hcap, hrest]

theorem searchOpt_skip_one {α : Type} (f : Chars → Option α) (L : Chars)
    (rest : List Chars) (hrest : rest ≠ []) (hL : SkipsLine f L) :
    searchOpt f (joinNL (L :: rest)) = searchOpt f (joinNL rest) := by
  rw [joinNL_cons L rest hrest]
  exact hL _

theorem searchOpt_titleAt_site (t R : Chars) (hne : t ≠ []) (hst : pyStrip t = t)
    (hpl : plainOk t = true) :
    searchOpt titleAt ((strL "## " ++ t) ++ '\n' :: R) = some t := by
  have hsh : (strL "## " ++ t) ++ '\n' :: R = '#' :: '#' :: (' ' :: (t ++ '\n' :: R)) := by
    simp [strL]
  rw [hsh]
  apply searchOpt_cons_some
  rw [show titleAt ('#' :: '#' :: (' ' :: (t ++ '\n' :: R))) =
    (wsDotCapR (' ' :: (t ++ '\n' :: R))).map Prod.fst from rfl]
  obtain ⟨c0, t', hct, hc0⟩ := head_not_of_stripFix t hne hst
  rw [wsDotCapR_site t R c0 t' hct hc0
    (fun d hd => plain_not_mem t hpl '\n' (by decide) ∘ (fun h => h ▸ hd))]
  rfl

theorem decodeTitle_benign (fs : Chars → Bool) (p : Project) (hb : benign p = true) :
    decodeTitle (generate_project_md fs p) = p.title := by
  obtain ⟨hTne, hTpl, hTst, _, _, _, _, _, _, hBo, _, _, _, _, _, _⟩ := benign_parts p hb
  have hf := titleAt_scanner
  unfold decodeTitle generate_project_md
  rw [generate_lines_benign fs p hb]
  unfold docLines
  simp only [List.append_assoc]
  rw [searchOpt_skip_chunks titleAt _ _ (by simp)
    (skips_style_chunk titleAt (strL "##") hf p hBo (by decide) (by decide) (by decide))]
  simp only [List.cons_append, List.nil_append]
  rw [searchOpt_skip_one titleAt _ _ (by simp)
    (skipsLine_weak titleAt (strL "##") _ hf (by decide))]
  rw [searchOpt_skip_one titleAt _ _ (by simp) (skipsLine_nil titleAt (strL "##") hf)]
  rw [joinNL_cons _ _ (by simp)]
  rw [searchOpt_titleAt_site p.title _ hTne hTst hTpl]
  exact hTst

theorem decodeId_benign (fs : Chars → Bool) (p : Project) (hb : benign p = true) :
    decodeId (generate_project_md fs p) = slug p.title := by
  obtain ⟨hTne, hTpl, hTst, _, _, _, _, _, _, hBo, _, _, _, _, _, _⟩ := benign_parts p hb
  have hf := titleAt_scanner
  unfold decodeId generate_project_md
  rw [generate_lines_benign fs p hb]
  unfold docLines
  simp only [List.append_assoc]
  rw [searchOpt_skip_chunks titleAt _ _ (by simp)
    (skips_style_chunk titleAt (strL "##") hf p hBo (by decide) (by decide) (by decide))]
  simp only [List.cons_append, List.nil_append]
  rw [searchOpt_skip_one titleAt _ _ (by simp)
    (skipsLine_weak titleAt (strL "##") _ hf (by decide))]
  rw [searchOpt_skip_one titleAt _ _ (by simp) (skipsLine_nil titleAt (strL "##") hf)]
  rw [joinNL_cons _ _ (by simp)]
  rw [searchOpt_titleAt_site p.title _ hTne hTst hTpl]
  exact congrArg slug hTst

theorem searchOpt_boldAt_site (s R : Chars) (hne : s ≠ []) (hpl : plainOk s = true) :
    searchOpt boldAt ((strL "**" ++ (s ++ strL "**")) ++ '\n' :: R) = some s := by
  have hstar : ∀ d ∈ s, d ≠ '*' := fun d hd he =>
    plain_not_mem s hpl '*' (by decide) (he ▸ hd)
  have hsh : (strL "**" ++ (s ++ strL "**")) ++ '\n' :: R =
      '*' :: '*' :: (s ++ '*' :: '*' :: '\n' :: R) := by
    simp [strL, List.append_assoc]
  rw [hsh]
  apply searchOpt_cons_some
  have hcap : (s ++ '*' :: '*' :: '\n' :: R).takeWhile (fun c => c ≠ '*') = s :=
    takeWhile_append_stop _ s '*' _ (fun d hd => by simp [hstar d hd]) (by simp)
  have hdro : (s ++ '*' :: '*' :: '\n' :: R).dropWhile (fun c => c ≠ '*') =
      '*' :: '*' :: '\n' :: R :=
    dropWhile_append_stop _ s '*' _ (fun d hd => by simp [hstar d hd]) (by simp)
  simp only [boldAt]
  rw [hcap, hdro]
  rw [if_neg (by simp [hne])]
  rfl

theorem searchOpt_pTagAt_site (s R : Chars) (hne : s ≠ []) (hpl : plainOk s = true) :
    searchOpt pTagAt ((strL "<p>" ++ (s ++ strL "</p>")) ++ '\n' :: R) = some s := by
  have hlt : ∀ d ∈ s, d ≠ '<' := fun d hd he =>
    plain_not_mem s hpl '<' (by decide) (he ▸ hd)
  have hsh : (strL "<p>" ++ (s ++ strL "</p>")) ++ '\n' :: R =
      '<' :: 'p' :: '>' :: (s ++ '<' :: '/' :: 'p' :: '>' :: '\n' :: R) := by
    simp [strL, List.append_assoc]
  rw [hsh]
  apply searchOpt_cons_some
  have hcap : (s ++ '<' :: '/' :: 'p' :: '>' :: '\n' :: R).takeWhile (fun c => c ≠ '<') = s :=
    takeWhile_append_stop _ s '<' _ (fun d hd => by simp [hlt d hd]) (by simp)
  have hdro : (s ++ '<' :: '/' :: 'p' :: '>' :: '\n' :: R).dropWhile (fun c => c ≠ '<') =
      '<' :: '/' :: 'p' :: '>' :: '\n' :: R :=
    dropWhile_append_stop _ s '<' _ (fun d hd => by simp [hlt d hd]) (by simp)
  simp only [pTagAt]
  rw [hcap, hdro]
  rw [if_neg (by simp [hne])]
  rw [if_pos (by rfl)]

theorem occursIn_wrap_false (pat : Chars) (p0 : Char) (ps : Chars) (hp : pat = p0 :: ps)
    (lit1 s lit2 : Chars) (hs : p0 ∈ s → False)
    (h1 : ∀ n, n < lit1.length → matchLit pat (lit1.drop n ++ (s ++ lit2)) = false)
    (h2 : occursIn pat lit2 = false) :
    occursIn pat (lit1 ++ (s ++ lit2)) = false := by
  apply occursIn_append_false pat lit1 _ h1
  apply occursIn_append_false pat s lit2 _ h2
  intro n hn
  obtain ⟨c, t, hct, hc⟩ := drop_head_mem s n hn
  rw [hct, List.cons_append, hp]
  apply matchLit_head_false
  cases hbq : (p0 == c) with
  | false => rfl
  | true =>
    rw [beq_iff_eq] at hbq
    exact absurd (hbq ▸ hc) (fun x => hs x)

theorem vocab_occursIn_false (pat : Chars)
    (hv : ∀ v ∈ known_categories, occursIn pat v = false)
    (cats : List Chars) (hc : ∀ c ∈ cats, c ∈ known_categories) :
    ∀ c ∈ cats, occursIn pat c = false := fun c hcm => hv c (hc c hcm)

theorem searchOpt_joinNL_last2 {α : Type} (f : Chars → Option α) (ls : List Chars)
    (L1 L2 : Chars) (hskip : ∀ l ∈ ls, SkipsLine f l) (hs1 : SkipsLine f L1)
    (hL2 : searchOpt f L2 = none) :
    searchOpt f (joinNL (ls ++ [L1, L2])) = none := by
  have hsh : ls ++ [L1, L2] = (ls ++ [L1]) ++ [L2] := by simp
  rw [hsh]
  apply searchOpt_joinNL_last f (ls ++ [L1]) L2 ?_ hL2
  intro l hl
  rcases List.mem_append.mp hl with h | h
  · exact hskip l h
  · rcases List.mem_singleton.mp h with rfl
    exact hs1

theorem skips_docLines {α : Type} (f : Chars → Option α) (pat : Chars)
    (hf : PatScanner f pat) (p : Project) (hBo : borderOk p = true)
    (hsty1 : occursIn pat (styleLine (strL "rounded")) = false)
    (hsty2 : occursIn pat (styleLine (strL "square")) = false)
    (hsty3 : occursIn pat (styleLine (strL "dashed")) = false)
    (hcdiv : occursIn pat (strL "<div align=\"center\">") = false)
    (httl : occursIn pat (strL "## " ++ p.title) = false)
    (hcats : occursIn pat (catBadges p.categories) = false)
    (hshort : p.short_description.isEmpty = false →
      occursIn pat (strL "**" ++ p.short_description ++ strL "**") = false)
    (hlong : p.long_description.isEmpty = false →
      occursIn pat (strL "<p>" ++ p.long_description ++ strL "</p>") = false)
    (hpopen : occursIn pat (strL "<p>") = false)
    (hpclose : occursIn pat (strL "</p>") = false)
    (hbadge : ∀ b ∈ linkBadges p.links (strL "000000"),
      occursIn pat (strL "  " ++ b) = false)
    (hth : occursIn pat (strL "### Tech Stack") = false)
    (hcode : ∀ t ∈ p.technologies,
      occursIn pat (strL "  <code>" ++ t ++ strL "</code>") = false)
    (hfh : occursIn pat (strL "### Features") = false)
    (hdash : ∀ x ∈ p.features, occursIn pat (strL "- " ++ x) = false)
    (hediv : occursIn pat (strL "</div>") = false) :
    ∀ l ∈ docLines p, SkipsLine f l := by
  intro l hl
  unfold docLines at hl
  rcases List.mem_append.mp hl with hl | h10
  · rcases List.mem_append.mp hl with hl | h9
    · rcases List.mem_append.mp hl with hl | h8
      · rcases List.mem_append.mp hl with hl | h7
        · rcases List.mem_append.mp hl with hl | h6
          · rcases List.mem_append.mp hl with hl | h5
            · rcases List.mem_append.mp hl with hl | h4
              · rcases List.mem_append.mp hl with hl | h3
                · rcases List.mem_append.mp hl with h1 | h2
                  · exact skips_style_chunk f pat hf p hBo hsty1 hsty2 hsty3 l h1
                  · exact skips_head_chunk f pat hf p.title hcdiv httl l h2
                · split at h3
                  case isTrue hcond =>
                    rcases List.mem_cons.mp h3 with rfl | h3
                    · exact skipsLine_weak f pat _ hf hcats
                    · rcases List.mem_singleton.mp (by simpa using h3) with rfl
                      exact skipsLine_nil f pat hf
                  case isFalse => simp at h3
              · split at h4
                case isTrue hcond =>
                  rcases List.mem_cons.mp h4 with rfl | h4
                  · exact skipsLine_weak f pat _ hf (hshort (by simpa using hcond))
                  · rcases List.mem_singleton.mp (by simpa using h4) with rfl
                    exact skipsLine_nil f pat hf
                case isFalse => simp at h4
            · split at h5
              case isTrue hcond =>
                rcases List.mem_cons.mp h5 with rfl | h5
                · exact skipsLine_weak f pat _ hf (hlong (by simpa using hcond))
                · rcases List.mem_singleton.mp (by simpa using h5) with rfl
                  exact skipsLine_nil f pat hf
              case isFalse => simp at h5
          · exact skips_links_chunk f pat hf p.links hpopen hpclose hbadge l h6
        · exact skips_tech_chunk f pat hf p.technologies hth hpopen hpclose hcode l h7
      · exact skips_feat_chunk f pat hf p.features hfh hdash l h8
    · exact skips_tail_chunk f pat hf hediv l h9
  · split at h10
    case isTrue =>
      rcases List.mem_singleton.mp h10 with rfl
      exact skipsLine_weak f pat _ hf hediv
    case isFalse => simp at h10

theorem docLines_true (p : Project) (hsb : p.show_border = true) :
    docLines p = ([styleLine p.border_style, []]
      ++ [strL "<div align=\"center\">", [], strL "## " ++ p.title, []]
      ++ (if !p.categories.isEmpty then [catBadges p.categories, []] else [])
      ++ (if !p.short_description.isEmpty then
            [strL "**" ++ p.short_description ++ strL "**", []] else [])
      ++ (if !p.long_description.isEmpty then
            [strL "<p>" ++ p.long_description ++ strL "</p>", []] else [])
      ++ linkLines p.links (strL "000000")
      ++ techLines p.technologies
      ++ featLines p.features
      ++ [strL "</div>", []]) ++ [strL "</div>"] := by
  unfold docLines
  rw [hsb]
  rfl

theorem docLines_false (p : Project) (hsb : p.show_border = false) :
    docLines p = ([strL "<div align=\"center\">", [], strL "## " ++ p.title, []]
      ++ (if !p.categories.isEmpty then [catBadges p.categories, []] else [])
      ++ (if !p.short_description.isEmpty then
            [strL "**" ++ p.short_description ++ strL "**", []] else [])
      ++ (if !p.long_description.isEmpty then
            [strL "<p>" ++ p.long_description ++ strL "</p>", []] else [])
      ++ linkLines p.links (strL "000000")
      ++ techLines p.technologies
      ++ featLines p.features) ++ [strL "</div>", []] := by
  unfold docLines
  rw [hsb]
  simp only [Bool.false_eq_true, if_false, List.nil_append, List.append_nil]

theorem searchOpt_docLines_none {α : Type} (f : Chars → Option α) (p : Project)
    (hall : ∀ l ∈ docLines p, SkipsLine f l)
    (hnil : f ([] : Chars) = none)
    (hediv : searchOpt f (strL "</div>") = none) :
    searchOpt f (joinNL (docLines p)) = none := by
  by_cases hsb : p.show_border = true
  · rw [docLines_true p hsb]
    apply searchOpt_joinNL_last f _ _ ?_ hediv
    intro l hl
    apply hall
    rw [docLines_true p hsb]
    exact List.mem_append_left _ hl
  · have hsb' : p.show_border = false := by simpa using hsb
    rw [docLines_false p hsb']
    refine searchOpt_joinNL_last2 f _ _ _ ?_ ?_ (show searchOpt f [] = none from hnil)
    · intro l hl
      apply hall
      rw [docLines_false p hsb']
      exact List.mem_append_left _ hl
    · apply hall
      rw [docLines_false p hsb']
      exact List.mem_append_right _ (by simp)

theorem fieldOk_plain (s : Chars) (h : fieldOk s = true) (hne : s.isEmpty = false) :
    plainOk s = true ∧ pyStrip s = s := by
  unfold fieldOk at h
  rw [hne] at h
  simp only [Bool.false_or, Bool.and_eq_true] at h
  exact ⟨h.1, by simpa [stripFix] using h.2⟩

theorem linksOk_parts (links : LinkMap) (hl : linksOk links = true) :
    linkOkC playDom [appsDom, gitDom] (dictGet links (strL "playStore")) = true ∧
    linkOkC appsDom [playDom, gitDom] (dictGet links (strL "appStore")) = true ∧
    linkOkC gitDom [playDom, appsDom] (dictGet links (strL "github")) = true ∧
    linkOkF (dictGet links (strL "website")) = true ∧
    linkOkF (dictGet links (strL "apk")) = true ∧
    (∀ kv ∈ links, kv.1 ∈ linkKeys) := by
  unfold linksOk at hl
  simp only [Bool.and_eq_true] at hl
  obtain ⟨⟨⟨⟨⟨hkeys, hplay⟩, happ⟩, hgit⟩, hweb⟩, hapk⟩ := hl
  refine ⟨hplay, happ, hgit, hweb, hapk, ?_⟩
  intro kv hkv
  have := List.all_eq_true.mp hkeys kv hkv
  simpa using this

theorem linkOkC_url (dom : Chars) (others : List Chars) (v : Chars)
    (h : linkOkC dom others v = true) (hne : v.isEmpty = false) : urlOk v = true := by
  unfold linkOkC at h
  rw [hne] at h
  simp only [Bool.false_or] at h
  unfold canonUrlOk at h
  simp only [Bool.and_eq_true] at h
  exact h.1.2

theorem linkOkF_url (v : Chars) (h : linkOkF v = true) (hne : v.isEmpty = false) :
    urlOk v = true := by
  unfold linkOkF at h
  rw [hne] at h
  simp only [Bool.false_or] at h
  unfold freeUrlOk at h
  simp only [Bool.and_eq_true] at h
  exact h.1.1.1

theorem linksOk_urlOk (links : LinkMap) (hlk : linksOk links = true) (u : Chars)
    (hcase : u = dictGet links (strL "playStore") ∨ u = dictGet links (strL "appStore") ∨
      u = dictGet links (strL "website") ∨ u = dictGet links (strL "github") ∨
      u = dictGet links (strL "apk"))
    (hune : u.isEmpty = false) : urlOk u = true := by
  obtain ⟨hplay, happ, hgit, hweb, hapk, _⟩ := linksOk_parts links hlk
  rcases hcase with rfl | rfl | rfl | rfl | rfl
  · exact linkOkC_url _ _ _ hplay hune
  · exact linkOkC_url _ _ _ happ hune
  · exact linkOkF_url _ hweb hune
  · exact linkOkC_url _ _ _ hgit hune
  · exact linkOkF_url _ hapk hune

theorem badge_occursIn_false (pat : Chars) (links : LinkMap) (hlk : linksOk links = true)
    (hq : '"' ∈ pat → False) (hne : pat ≠ [])
    (hurl : ∀ u, urlOk u = true → occursIn pat u = false)
    (hl1 : occursIn pat (strL "  <a href=") = false)
    (hl2 : occursIn pat (strL "><img src=") = false)
    (hl3 : occursIn pat (strL "></a>") = false)
    (hs1 : occursIn pat shPlay = false) (hs2 : occursIn pat shApps = false)
    (hs3 : occursIn pat shWeb = false) (hs4 : occursIn pat shGit = false)
    (hs5 : occursIn pat shApk = false) :
    ∀ b ∈ linkBadges links (strL "000000"), occursIn pat (strL "  " ++ b) = false := by
  intro b hbm
  obtain ⟨u, sh, rfl, hune, hcase⟩ := linkBadges_mem_benign links b hbm
  rw [occursIn_badge pat hq hne u sh]
  have hu : occursIn pat u = false := by
    apply hurl
    apply linksOk_urlOk links hlk u ?_ hune
    rcases hcase with ⟨rfl, _⟩ | ⟨rfl, _⟩ | ⟨rfl, _⟩ | ⟨rfl, _⟩ | ⟨rfl, _⟩
    · exact Or.inl rfl
    · exact Or.inr (Or.inl rfl)
    · exact Or.inr (Or.inr (Or.inl rfl))
    · exact Or.inr (Or.inr (Or.inr (Or.inl rfl)))
    · exact Or.inr (Or.inr (Or.inr (Or.inr rfl)))
  have hshe : occursIn pat sh = false := by
    rcases hcase with ⟨_, rfl⟩ | ⟨_, rfl⟩ | ⟨_, rfl⟩ | ⟨_, rfl⟩ | ⟨_, rfl⟩
    · exact hs1
    · exact hs2
    · exact hs3
    · exact hs4
    · exact hs5
  rw [hl1, hu, hl2, hshe, hl3]
  rfl

theorem urlOk_char_false (pat : Chars) (c : Char) (hc : c ∈ pat) (hcu : urlChar c = false) :
    ∀ u, urlOk u = true → occursIn pat u = false := fun u hu =>
  occursIn_char_absence pat u c hc (url_not_mem u hu c hcu)

theorem itemOk_parts (s : Chars) (h : itemOk s = true) :
    s ≠ [] ∧ plainOk s = true ∧ headNotWs s = true := by
  unfold itemOk at h
  simp only [Bool.and_eq_true] at h
  exact ⟨by simpa using h.1.1, h.1.2, h.2⟩

theorem decodeShort_benign (fs : Chars → Bool) (p : Project) (hb : benign p = true) :
    decodeShort (generate_project_md fs p) = p.short_description := by
  obtain ⟨hTne, hTpl, hTst, hCat, hSh, hLo, hTe, hFe, hLk, hBo, _, _, _, _, _, _⟩ :=
    benign_parts p hb
  have hf := boldAt_scanner
  have httl : occursIn (strL "**") (strL "## " ++ p.title) = false :=
    occursIn_false_lf _ _ _ '*' (by decide) (by decide) (plain_not_mem _ hTpl '*' (by decide))
  unfold decodeShort generate_project_md
  rw [generate_lines_benign fs p hb]
  by_cases hse : p.short_description.isEmpty = true
  · have hsnil : p.short_description = [] := by simpa using hse
    rw [searchOpt_docLines_none boldAt p
      (skips_docLines boldAt (strL "**") hf p hBo (by decide) (by decide) (by decide)
        (by decide) httl
        (occursIn_catBadges_false _ _ (by decide) (by decide) (by decide)
          (vocab_occursIn_false _ (by decide) _ hCat))
        (fun hc => by rw [hsnil] at hc; simp at hc)
        (fun hc => by
          obtain ⟨hpl, _⟩ := fieldOk_plain _ hLo hc
          exact occursIn_false_lfl _ _ _ _ '*' (by decide) (by decide) (by decide)
            (plain_not_mem _ hpl '*' (by decide)))
        (by decide) (by decide)
        (badge_occursIn_false _ _ hLk (by decide) (by decide)
          (urlOk_char_false _ '*' (by decide) (by decide))
          (by decide) (by decide) (by decide) (by decide) (by decide) (by decide)
          (by decide) (by decide))
        (by decide)
        (fun t ht => occursIn_false_lfl _ _ _ _ '*' (by decide) (by decide) (by decide)
          (plain_not_mem _ (hTe t ht).2 '*' (by decide)))
        (by decide)
        (fun x hx => occursIn_false_lf _ _ _ '*' (by decide) (by decide)
          (plain_not_mem _ (itemOk_parts x (hFe x hx)).2.1 '*' (by decide)))
        (by decide))
      rfl (by decide)]
    rw [hsnil]
  · have hcond : (!p.short_description.isEmpty) = true := by
      simp only [Bool.not_eq_true'] at hse ⊢
      simpa using hse
    obtain ⟨hpl, hst⟩ := fieldOk_plain _ hSh (by simpa using hse)
    have hsne : p.short_description ≠ [] := by
      intro h
      rw [h] at hse
      exact hse rfl
    unfold docLines
    simp only [List.append_assoc]
    rw [searchOpt_skip_chunks boldAt _ _ (by simp)
      (skips_style_chunk boldAt (strL "**") hf p hBo (by decide) (by decide) (by decide))]
    simp only [List.cons_append, List.nil_append]
    rw [searchOpt_skip_one boldAt _ _ (by simp)
      (skipsLine_weak boldAt (strL "**") _ hf (by decide))]
    rw [searchOpt_skip_one boldAt _ _ (by simp) (skipsLine_nil boldAt (strL "**") hf)]
    rw [searchOpt_skip_one boldAt _ _ (by simp)
      (skipsLine_weak boldAt (strL "**") _ hf httl)]
    rw [searchOpt_skip_one boldAt _ _ (by simp) (skipsLine_nil boldAt (strL "**") hf)]
    rw [searchOpt_skip_chunks boldAt _ _ (by simp)
      (skips_opt_chunk boldAt (strL "**") hf _ _
        (occursIn_catBadges_false _ _ (by decide) (by decide) (by decide)
          (vocab_occursIn_false _ (by decide) _ hCat)))]
    rw [if_pos hcond]
    simp only [List.cons_append, List.nil_append]
    rw [joinNL_cons _ _ (by simp)]
    rw [searchOpt_boldAt_site _ _ hsne hpl]
    exact hst
